import Mathlib

/-!
Shallow embedding of the project-aggregation engine of the cville-eda
permit pipeline (src/permits), together with theorems settling the
specification claims about it.

Conventions of the embedding:
* Python dicts keyed by identifier are modelled as association lists
  `List (String × α)`; where only key membership matters, as `List String`
  of keys.  Insertion order of Python dicts is the list order.
* Python `datetime` values are encoded as natural numbers
  `year * 10000 + month * 100 + day`; for the dates handled here
  (month ≤ 12, day ≤ 31) this encoding is strictly monotone in the
  lexicographic (year, month, day) order that `datetime` comparison uses.
* Python string operations are re-implemented over `List Char`
  (`String.data`) so that every definition is executable and decidable.
-/

namespace CvilleEda

/-! ### Generic string helpers (Python `str` operations) -/

/-- Python `s.endswith(suffix)`. -/
def strEndsWith (s suffix : String) : Bool :=
  suffix.data.isSuffixOf s.data

/-- Python `s[:-n]` for `n ≤ len(s)`: drop the final `n` characters. -/
def strDropRight (s : String) (n : Nat) : String :=
  ⟨s.data.take (s.data.length - n)⟩

namespace PermitUtils

/-!
### `src/permits/permit_utils.py` — `normalize_permit_id`

The Python function receives the permit dict but only tests key
membership, so the embedding receives the list of store keys.
-/

/-- Embedding of `normalize_permit_id(pid, permits)`:
return `pid` if it is a store key, else `pid + ".00"` if that is a key,
else the stem if `pid` ends in `".00"` and the stem is a key, else `None`. -/
def normalize_permit_id (pid : String) (keys : List String) : Option String :=
  if pid ∈ keys then some pid
  else if pid ++ ".00" ∈ keys then some (pid ++ ".00")
  else if strEndsWith pid ".00" = true ∧ strDropRight pid 3 ∈ keys then
    some (strDropRight pid 3)
  else none

/-- Whatever `normalize_permit_id` returns is a key of the store. -/
theorem normalize_mem {pid : String} {keys : List String} {k : String}
    (h : normalize_permit_id pid keys = some k) : k ∈ keys := by
  unfold normalize_permit_id at h
  split at h
  · cases h; assumption
  · split at h
    · cases h; assumption
    · split at h
      · cases h; exact (by assumption : _ ∧ _).2
      · cases h

/-- On a key of the store, `normalize_permit_id` is the identity. -/
theorem normalize_of_mem {k : String} {keys : List String} (h : k ∈ keys) :
    normalize_permit_id k keys = some k := by
  unfold normalize_permit_id
  rw [if_pos h]

end PermitUtils

/-! ### Record model (`src/permits/models.py`)

Only the fields read by the embedded functions are carried; the remaining
fields of the pydantic models (urls, contacts, inspections, …) are never
consulted by the code under verification. -/

structure SearchResult where
  permit_type : String
  sub_type : String
  status : String
  parcel_number : String
  date_created : String
deriving DecidableEq, Repr

structure CaseLink where
  permit_id : String
deriving DecidableEq, Repr

structure Task where
  description : String
  result : String
  date_completed : String
deriving DecidableEq, Repr

structure Payment where
  payment_date : String
deriving DecidableEq, Repr

structure Detail where
  description : String
  data : String
deriving DecidableEq, Repr

structure Permit where
  permit_id : String
  search_result : SearchResult
  /-- `info.permit_number`, the input of the `permit_year` property. -/
  permit_number : String
  parent_cases : List CaseLink
  child_cases : List CaseLink
  site_addresses : List String
  details : List Detail
  tasks : List Task
  payments : List Payment
deriving DecidableEq, Repr

/-- The permit store `dict[str, Permit]` as an association list; list order is
the dict's insertion order. -/
def Store := List (String × Permit)

def storeKeys (store : List (String × Permit)) : List String :=
  store.map Prod.fst

namespace PermitUtils

/-!
### `src/permits/permit_utils.py` — `find_related_permits`

The Python loop pops from the END of `queue` (a stack).  The embedding
represents the queue reversed, head = top of the stack, so Python's
`queue.extend-at-end` of the parent links followed by the child links
becomes consing `(links).reverse` onto the front.
-/

/-- Number of outgoing link declarations of a permit. -/
def linkCount (p : Permit) : Nat :=
  p.parent_cases.length + p.child_cases.length

/-- The treatment of one parent/child link: normalize, keep when
normalization succeeds and the result is unvisited. -/
def normLink (store : List (String × Permit)) (visited : List String)
    (link : CaseLink) : Option String :=
  match normalize_permit_id link.permit_id (storeKeys store) with
  | some norm => if norm ∈ visited then none else some norm
  | none => none

theorem normLink_mem {store : List (String × Permit)} {visited : List String}
    {link : CaseLink} {x : String} (h : normLink store visited link = some x) :
    x ∈ storeKeys store := by
  unfold normLink at h
  split at h
  case h_1 norm hn =>
    split at h
    · cases h
    · cases h; exact normalize_mem hn
  case h_2 => cases h

/-- The identifiers pushed while popping `p`: every parent then child link,
normalized, kept when normalization succeeds and the result is unvisited.
(`visited` here already contains the id being expanded, as in the source.) -/
def pushedNeighbors (store : List (String × Permit)) (visited : List String)
    (p : Permit) : List String :=
  (p.parent_cases ++ p.child_cases).filterMap (normLink store visited)

/-- One fuel unit per loop iteration; `none` only on fuel exhaustion,
which `find_related_terminates` below rules out. -/
def find_related_aux (store : List (String × Permit)) :
    Nat → List String → List String → Option (List String)
  | _, visited, [] => some visited
  | 0, _, _ :: _ => none
  | fuel + 1, visited, pid :: rest =>
    if pid ∈ visited then find_related_aux store fuel visited rest
    else
      let visited' := pid :: visited
      match List.lookup pid store with
      | none => find_related_aux store fuel visited' rest
      | some p =>
        find_related_aux store fuel visited'
          ((pushedNeighbors store visited' p).reverse ++ rest)

/-- Fuel that provably suffices for any input (one unit per possible
iteration: every seed, plus every link of every stored permit, plus one). -/
def fuelBound (store : List (String × Permit)) (seeds : List String) : Nat :=
  seeds.length + ((store.map fun kp => linkCount kp.2).sum) + 1

/-- Embedding of `find_related_permits(start_ids, permits)`; the visited set
is returned as a list in insertion-reversed order. -/
def find_related_permits (seeds : List String)
    (store : List (String × Permit)) : Option (List String) :=
  find_related_aux store (fuelBound store seeds) [] seeds.reverse

/-- Loop potential: queue length plus the links of the not-yet-visited part
of the store.  It strictly decreases at every iteration. -/
def phi (store : List (String × Permit)) (visited queue : List String) : Nat :=
  queue.length +
    ((store.filter fun kp => kp.1 ∉ visited).map fun kp => linkCount kp.2).sum

theorem sum_filter_mono (store : List (String × Permit))
    (p q : String × Permit → Bool) (h : ∀ x, p x = true → q x = true) :
    ((store.filter p).map fun kp => linkCount kp.2).sum ≤
      ((store.filter q).map fun kp => linkCount kp.2).sum := by
  induction store with
  | nil => simp
  | cons hd tl ih =>
    by_cases hp : p hd = true
    · rw [List.filter_cons_of_pos hp, List.filter_cons_of_pos (h hd hp)]
      simp only [List.map_cons, List.sum_cons]
      exact Nat.add_le_add_left ih _
    · rw [List.filter_cons_of_neg (by simpa using hp)]
      by_cases hq : q hd = true
      · rw [List.filter_cons_of_pos hq]
        simp only [List.map_cons, List.sum_cons]
        exact le_trans ih (Nat.le_add_left _ _)
      · rw [List.filter_cons_of_neg (by simpa using hq)]
        exact ih

theorem sum_filter_lookup (store : List (String × Permit)) (pid : String)
    (p : Permit) (visited : List String) (hlk : List.lookup pid store = some p)
    (hpid : pid ∉ visited) :
    ((store.filter fun kp => kp.1 ∉ (pid :: visited)).map
        fun kp => linkCount kp.2).sum + linkCount p ≤
      ((store.filter fun kp => kp.1 ∉ visited).map fun kp => linkCount kp.2).sum := by
  induction store with
  | nil => simp at hlk
  | cons hd tl ih =>
    rcases hd with ⟨k, q⟩
    by_cases hk : k = pid
    · subst hk
      obtain rfl : q = p := by simpa using hlk
      rw [List.filter_cons_of_neg (by simp), List.filter_cons_of_pos (by simpa using hpid)]
      simp only [List.map_cons, List.sum_cons]
      have hmono := sum_filter_mono tl
        (fun kp => decide (kp.1 ∉ (k :: visited)))
        (fun kp => decide (kp.1 ∉ visited))
        (by
          intro x hx
          simp only [decide_eq_true_eq] at hx ⊢
          intro hmem
          exact hx (List.mem_cons_of_mem _ hmem))
      omega
    · rw [List.lookup_cons] at hlk
      rw [show (pid == k) = false from beq_false_of_ne fun h => hk h.symm] at hlk
      by_cases hv : k ∈ visited
      · rw [List.filter_cons_of_neg (by simp [hv]),
          List.filter_cons_of_neg (by simp [hv])]
        exact ih hlk
      · rw [List.filter_cons_of_pos (by simp [hv, hk]),
          List.filter_cons_of_pos (by simpa using hv)]
        simp only [List.map_cons, List.sum_cons]
        have := ih hlk
        omega

theorem pushedNeighbors_length (store : List (String × Permit))
    (visited : List String) (p : Permit) :
    (pushedNeighbors store visited p).length ≤ linkCount p := by
  unfold pushedNeighbors linkCount
  calc (List.filterMap _ (p.parent_cases ++ p.child_cases)).length
      ≤ (p.parent_cases ++ p.child_cases).length := List.length_filterMap_le _ _
    _ = _ := by simp

/-- With fuel exceeding the potential, the traversal completes. -/
theorem aux_isSome (store : List (String × Permit)) :
    ∀ fuel visited queue, phi store visited queue < fuel →
      (find_related_aux store fuel visited queue).isSome := by
  intro fuel
  induction fuel with
  | zero => intro visited queue h; omega
  | succ fuel ih =>
    intro visited queue h
    match queue with
    | [] => simp [find_related_aux]
    | pid :: rest =>
      rw [find_related_aux]
      by_cases hv : pid ∈ visited
      · rw [if_pos hv]
        apply ih
        have : phi store visited rest + 1 = phi store visited (pid :: rest) := by
          simp [phi]; omega
        omega
      · rw [if_neg hv]
        have hmono := sum_filter_mono store
          (fun kp => decide (kp.1 ∉ (pid :: visited)))
          (fun kp => decide (kp.1 ∉ visited))
          (by
            intro x hx
            simp only [decide_eq_true_eq] at hx ⊢
            intro hmem
            exact hx (List.mem_cons_of_mem _ hmem))
        match hlk : List.lookup pid store with
        | none =>
          simp only
          apply ih
          have : phi store (pid :: visited) rest ≤ phi store visited rest := by
            simp only [phi]
            exact Nat.add_le_add_left hmono _
          have : phi store visited rest + 1 = phi store visited (pid :: rest) := by
            simp [phi]; omega
          omega
        | some p =>
          simp only
          apply ih
          have hsum := sum_filter_lookup store pid p visited hlk hv
          have hlen := pushedNeighbors_length store (pid :: visited) p
          simp only [phi, List.length_append, List.length_reverse,
            List.length_cons] at h ⊢
          omega

/-- The traversal with the computed fuel bound always succeeds. -/
theorem find_related_terminates (store : List (String × Permit))
    (seeds : List String) : ∃ r, find_related_permits seeds store = some r := by
  have h : phi store [] seeds.reverse < fuelBound store seeds := by
    simp only [phi, fuelBound, List.length_reverse]
    have : (store.filter fun kp => kp.1 ∉ ([] : List String)) = store := by
      simp
    rw [this]
    omega
  have := aux_isSome store (fuelBound store seeds) [] seeds.reverse h
  exact Option.isSome_iff_exists.mp this

/-- Everything visited or still queued ends up in the result. -/
theorem aux_mem (store : List (String × Permit)) :
    ∀ fuel visited queue r, find_related_aux store fuel visited queue = some r →
      (∀ x ∈ visited, x ∈ r) ∧ (∀ x ∈ queue, x ∈ r) := by
  intro fuel
  induction fuel with
  | zero =>
    intro visited queue r h
    match queue with
    | [] =>
      simp only [find_related_aux, Option.some.injEq] at h
      subst h
      exact ⟨fun x hx => hx, by simp⟩
    | pid :: rest => simp [find_related_aux] at h
  | succ fuel ih =>
    intro visited queue r h
    match queue with
    | [] =>
      simp only [find_related_aux, Option.some.injEq] at h
      subst h
      exact ⟨fun x hx => hx, by simp⟩
    | pid :: rest =>
      rw [find_related_aux] at h
      by_cases hv : pid ∈ visited
      · rw [if_pos hv] at h
        obtain ⟨h1, h2⟩ := ih visited rest r h
        refine ⟨h1, fun x hx => ?_⟩
        rcases List.mem_cons.mp hx with rfl | hx
        · exact h1 x hv
        · exact h2 x hx
      · rw [if_neg hv] at h
        match hlk : List.lookup pid store with
        | none =>
          rw [hlk] at h
          obtain ⟨h1, h2⟩ := ih (pid :: visited) rest r h
          refine ⟨fun x hx => h1 x (List.mem_cons_of_mem _ hx), fun x hx => ?_⟩
          rcases List.mem_cons.mp hx with rfl | hx
          · exact h1 x (List.mem_cons_self _ _)
          · exact h2 x hx
        | some p =>
          rw [hlk] at h
          obtain ⟨h1, h2⟩ := ih (pid :: visited) _ r h
          refine ⟨fun x hx => h1 x (List.mem_cons_of_mem _ hx), fun x hx => ?_⟩
          rcases List.mem_cons.mp hx with rfl | hx
          · exact h1 x (List.mem_cons_self _ _)
          · exact h2 x (List.mem_append_right _ hx)

/-- Every member of the result was a seed or is a store key: neighbours enter
the queue only through successful normalization. -/
theorem aux_subset (store : List (String × Permit)) :
    ∀ fuel visited queue r, find_related_aux store fuel visited queue = some r →
      ∀ x ∈ r, x ∈ visited ∨ x ∈ queue ∨ x ∈ storeKeys store := by
  intro fuel
  induction fuel with
  | zero =>
    intro visited queue r h x hx
    match queue with
    | [] =>
      simp only [find_related_aux, Option.some.injEq] at h
      subst h
      exact Or.inl hx
    | pid :: rest => simp [find_related_aux] at h
  | succ fuel ih =>
    intro visited queue r h x hx
    match queue with
    | [] =>
      simp only [find_related_aux, Option.some.injEq] at h
      subst h
      exact Or.inl hx
    | pid :: rest =>
      rw [find_related_aux] at h
      by_cases hv : pid ∈ visited
      · rw [if_pos hv] at h
        rcases ih visited rest r h x hx with h1 | h1 | h1
        · exact Or.inl h1
        · exact Or.inr (Or.inl (List.mem_cons_of_mem _ h1))
        · exact Or.inr (Or.inr h1)
      · rw [if_neg hv] at h
        match hlk : List.lookup pid store with
        | none =>
          rw [hlk] at h
          rcases ih (pid :: visited) rest r h x hx with h1 | h1 | h1
          · rcases List.mem_cons.mp h1 with rfl | h1
            · exact Or.inr (Or.inl (List.mem_cons_self _ _))
            · exact Or.inl h1
          · exact Or.inr (Or.inl (List.mem_cons_of_mem _ h1))
          · exact Or.inr (Or.inr h1)
        | some p =>
          rw [hlk] at h
          rcases ih (pid :: visited) _ r h x hx with h1 | h1 | h1
          · rcases List.mem_cons.mp h1 with rfl | h1
            · exact Or.inr (Or.inl (List.mem_cons_self _ _))
            · exact Or.inl h1
          · rcases List.mem_append.mp h1 with h1 | h1
            · -- a pushed neighbour: it came out of `normalize_permit_id`
              rw [List.mem_reverse] at h1
              unfold pushedNeighbors at h1
              obtain ⟨link, _, hlink⟩ := List.mem_filterMap.mp h1
              exact Or.inr (Or.inr (normLink_mem hlink))
            · exact Or.inr (Or.inl (List.mem_cons_of_mem _ h1))
          · exact Or.inr (Or.inr h1)

end PermitUtils

/-! Concrete two-record store with the cycle A→B→A. -/

def permitA : Permit :=
  { permit_id := "A"
    search_result :=
      { permit_type := "", sub_type := "", status := "", parcel_number := ""
        date_created := "" }
    permit_number := ""
    parent_cases := []
    child_cases := [{ permit_id := "B" }]
    site_addresses := [], details := [], tasks := [], payments := [] }

def permitB : Permit :=
  { permit_id := "B"
    search_result :=
      { permit_type := "", sub_type := "", status := "", parcel_number := ""
        date_created := "" }
    permit_number := ""
    parent_cases := []
    child_cases := [{ permit_id := "A" }]
    site_addresses := [], details := [], tasks := [], payments := [] }

def cycleStore : List (String × Permit) := [("A", permitA), ("B", permitB)]

/-! ### Generic list machinery: `defaultdict` grouping and Python's stable sort -/

/-- One `by_key[key(p)].append(p)` step on an association list of buckets:
append to the bucket of `key p`, or append a fresh bucket at the end. -/
def insertGrouped {α : Type} (key : α → String)
    (acc : List (String × List α)) (p : α) : List (String × List α) :=
  match acc with
  | [] => [(key p, [p])]
  | (k, g) :: rest =>
    if k = key p then (k, g ++ [p]) :: rest else (k, g) :: insertGrouped key rest p

/-- `defaultdict(list)` grouping: bucket order is key-first-seen order,
members keep list order. -/
def groupByKey {α : Type} (key : α → String) (l : List α) :
    List (String × List α) :=
  l.foldl (insertGrouped key) []

theorem insertGrouped_sound {α : Type} (key : α → String)
    (acc : List (String × List α)) (p : α)
    (h : ∀ kg ∈ acc, ∀ q ∈ kg.2, key q = kg.1) :
    ∀ kg ∈ insertGrouped key acc p, ∀ q ∈ kg.2, key q = kg.1 := by
  induction acc with
  | nil =>
    intro kg hkg q hq
    simp only [insertGrouped, List.mem_singleton] at hkg
    subst hkg
    simp only [List.mem_singleton] at hq
    subst hq
    rfl
  | cons hd tl ih =>
    rcases hd with ⟨k, g⟩
    intro kg hkg q hq
    rw [insertGrouped] at hkg
    split at hkg
    case isTrue heq =>
      rcases List.mem_cons.mp hkg with rfl | hkg
      · rcases List.mem_append.mp hq with hq | hq
        · exact h (k, g) (List.mem_cons_self _ _) q hq
        · simp only [List.mem_singleton] at hq
          subst hq
          exact heq.symm
      · exact h kg (List.mem_cons_of_mem _ hkg) q hq
    case isFalse =>
      rcases List.mem_cons.mp hkg with rfl | hkg
      · exact h (k, g) (List.mem_cons_self _ _) q hq
      · exact ih (fun kg2 h2 => h kg2 (List.mem_cons_of_mem _ h2)) kg hkg q hq

theorem insertGrouped_keys {α : Type} (key : α → String)
    (acc : List (String × List α)) (p : α) :
    (insertGrouped key acc p).map Prod.fst =
      if key p ∈ acc.map Prod.fst then acc.map Prod.fst
      else acc.map Prod.fst ++ [key p] := by
  induction acc with
  | nil => simp [insertGrouped]
  | cons hd tl ih =>
    rcases hd with ⟨k, g⟩
    rw [insertGrouped]
    split
    case isTrue heq =>
      subst heq
      simp
    case isFalse hne =>
      simp only [List.map_cons]
      rw [ih]
      by_cases hmem : key p ∈ tl.map Prod.fst
      · rw [if_pos hmem, if_pos (List.mem_cons_of_mem _ hmem)]
      · rw [if_neg hmem, if_neg (by
          intro hcon
          rcases List.mem_cons.mp hcon with hcon | hcon
          · exact hne hcon.symm
          · exact hmem hcon)]
        simp

theorem insertGrouped_keys_nodup {α : Type} (key : α → String)
    (acc : List (String × List α)) (p : α)
    (h : (acc.map Prod.fst).Nodup) :
    ((insertGrouped key acc p).map Prod.fst).Nodup := by
  rw [insertGrouped_keys]
  split
  · exact h
  case isFalse hne =>
    refine List.nodup_append.mpr ⟨h, List.nodup_singleton _, ?_⟩
    intro a ha hb
    rw [List.mem_singleton] at hb
    subst hb
    exact hne ha

theorem insertGrouped_mem {α : Type} (key : α → String)
    (acc : List (String × List α)) (p x : α) :
    (x ∈ (insertGrouped key acc p).flatMap Prod.snd) ↔
      x ∈ acc.flatMap Prod.snd ∨ x = p := by
  induction acc with
  | nil => simp [insertGrouped]
  | cons hd tl ih =>
    rcases hd with ⟨k, g⟩
    rw [insertGrouped]
    split
    · simp only [List.flatMap_cons, List.mem_append, List.mem_singleton]
      tauto
    · simp only [List.flatMap_cons, List.mem_append, ih]
      tauto

theorem groupByKey_sound {α : Type} (key : α → String) (l : List α) :
    ∀ kg ∈ groupByKey key l, ∀ q ∈ kg.2, key q = kg.1 := by
  suffices h : ∀ acc, (∀ kg ∈ acc, ∀ q ∈ kg.2, key q = kg.1) →
      ∀ kg ∈ l.foldl (insertGrouped key) acc, ∀ q ∈ kg.2, key q = kg.1 by
    exact h [] (by simp)
  induction l with
  | nil => intro acc hacc; simpa using hacc
  | cons hd tl ih =>
    intro acc hacc
    exact ih _ (insertGrouped_sound key acc hd hacc)

theorem groupByKey_keys_nodup {α : Type} (key : α → String) (l : List α) :
    ((groupByKey key l).map Prod.fst).Nodup := by
  suffices h : ∀ acc, (acc.map Prod.fst).Nodup →
      ((l.foldl (insertGrouped key) acc).map Prod.fst).Nodup by
    exact h [] (by simp)
  induction l with
  | nil => intro acc hacc; simpa using hacc
  | cons hd tl ih =>
    intro acc hacc
    exact ih _ (insertGrouped_keys_nodup key acc hd hacc)

theorem groupByKey_mem {α : Type} (key : α → String) (l : List α) (x : α) :
    x ∈ (groupByKey key l).flatMap Prod.snd ↔ x ∈ l := by
  suffices h : ∀ acc, (x ∈ (l.foldl (insertGrouped key) acc).flatMap Prod.snd ↔
      x ∈ acc.flatMap Prod.snd ∨ x ∈ l) by
    simpa using h []
  induction l with
  | nil => intro acc; simp
  | cons hd tl ih =>
    intro acc
    rw [List.foldl_cons, ih (insertGrouped key acc hd)]
    rw [insertGrouped_mem]
    simp only [List.mem_cons]
    tauto

/-- Stable insertion: place `x` after every element `y` with `le y x`.
Processing elements left to right with this insertion is a stable ascending
sort, hence agrees with CPython's stable `list.sort`. -/
def insertSorted {α : Type} (le : α → α → Bool) (x : α) : List α → List α
  | [] => [x]
  | y :: ys => if le y x then y :: insertSorted le x ys else x :: y :: ys

/-- Python's `list.sort(key=...)`, as a stable ascending insertion sort. -/
def pySort {α : Type} (le : α → α → Bool) (l : List α) : List α :=
  l.foldl (fun acc x => insertSorted le x acc) []

theorem insertSorted_perm {α : Type} (le : α → α → Bool) (x : α)
    (l : List α) : List.Perm (insertSorted le x l) (x :: l) := by
  induction l with
  | nil => exact List.Perm.refl _
  | cons y ys ih =>
    rw [insertSorted]
    split
    · exact (ih.cons y).trans (List.Perm.swap x y ys)
    · exact List.Perm.refl _

theorem pySort_perm {α : Type} (le : α → α → Bool) (l : List α) :
    List.Perm (pySort le l) l := by
  suffices h : ∀ acc, List.Perm
      (l.foldl (fun acc x => insertSorted le x acc) acc) (acc ++ l) by
    simpa using h []
  induction l with
  | nil => intro acc; simp
  | cons hd tl ih =>
    intro acc
    rw [List.foldl_cons]
    refine (ih (insertSorted le hd acc)).trans ?_
    refine ((insertSorted_perm le hd acc).append_right tl).trans ?_
    exact List.perm_middle.symm

theorem insertSorted_sorted {α : Type} (le : α → α → Bool)
    (htrans : ∀ a b c, le a b = true → le b c = true → le a c = true)
    (htotal : ∀ a b, le a b = true ∨ le b a = true) (x : α) (l : List α)
    (h : l.Pairwise fun a b => le a b = true) :
    (insertSorted le x l).Pairwise fun a b => le a b = true := by
  induction l with
  | nil => rw [insertSorted]; simp
  | cons y ys ih =>
    rw [insertSorted]
    rcases List.pairwise_cons.mp h with ⟨hy, hys⟩
    split
    case isTrue hle =>
      refine List.pairwise_cons.mpr ⟨?_, ih hys⟩
      intro z hz
      rcases List.mem_cons.mp ((insertSorted_perm le x ys).mem_iff.mp hz)
        with rfl | hz
      · exact hle
      · exact hy z hz
    case isFalse hgt =>
      refine List.pairwise_cons.mpr ⟨?_, h⟩
      intro z hz
      have hxy : le x y = true := by
        rcases htotal x y with h1 | h1
        · exact h1
        · exact absurd h1 (by simpa using hgt)
      rcases List.mem_cons.mp hz with rfl | hz
      · exact hxy
      · exact htrans x y z hxy (hy z hz)

theorem pySort_sorted {α : Type} (le : α → α → Bool)
    (htrans : ∀ a b c, le a b = true → le b c = true → le a c = true)
    (htotal : ∀ a b, le a b = true ∨ le b a = true) (l : List α) :
    (pySort le l).Pairwise fun a b => le a b = true := by
  suffices h : ∀ acc, acc.Pairwise (fun a b => le a b = true) →
      (l.foldl (fun acc x => insertSorted le x acc) acc).Pairwise
        fun a b => le a b = true by
    exact h [] (by simp)
  induction l with
  | nil => intro acc hacc; simpa using hacc
  | cons hd tl ih =>
    intro acc hacc
    exact ih _ (insertSorted_sorted le htrans htotal hd acc hacc)

namespace TopDev

/-!
### `src/permits/top_developments.py` — project dicts and the deduplicator

`find_developments` builds one flat dict per candidate development; the
fields below are the keys of that dict (plus `developer`, which only the
override engine's `revise` step ever writes).  Dates inside the dict are
already-parsed `datetime`s, encoded as `Nat` (see the file header).
-/

structure TProject where
  units : Option Nat
  permit_id : String
  project_number : String
  use_type : String
  status : String
  addresses : List String
  parcels : List String
  zone : String
  zoning_code : String
  code_reason : Option String
  qualifying_date : Option Nat
  initial_submit : Option Nat
  last_updated : Option Nat
  permit_count : Nat
  developer : Option String
deriving DecidableEq, Repr

/-- The dedup key of `find_developments`: first parcel if available,
otherwise the first address, otherwise the permit id. -/
def dedupKey (p : TProject) : String :=
  match p.parcels with
  | parcel :: _ => parcel
  | [] =>
    match p.addresses with
    | addr :: _ => addr
    | [] => p.permit_id

/-- The `status_priority` table (higher = better). -/
def STATUS_PRIORITY : List (String × Nat) :=
  [("APPROVED", 100), ("APPROVEDCL", 100), ("UNDERCONST", 90),
   ("PLANCOMM", 80), ("REVIEW", 70), ("RESUBMIT", 60), ("COMMENTS", 50),
   ("APPLIED", 40), ("DEFERRED", 30), ("EXPIRED", 20), ("REJECTED", 10),
   ("WITHDRAWN", 10), ("DENIED", 10), ("CLOSED", 10), ("VOID", 0)]

/-- `status_priority.get(status, 25)`. -/
def statusPriority (s : String) : Nat :=
  (STATUS_PRIORITY.lookup s).getD 25

/-- The `max(..., key=...)` key: `(status_priority.get(status, 25),
units or 0)`. -/
def dedupSortKey (p : TProject) : Nat × Nat :=
  (statusPriority p.status, p.units.getD 0)

/-- Strict lexicographic greater-than on the max key. -/
def keyGT (a b : Nat × Nat) : Bool :=
  decide (b.1 < a.1) || (decide (a.1 = b.1) && decide (b.2 < a.2))

/-- Python's `max(l, key=f)`: the first element attaining the maximum
(later elements replace the running best only when strictly greater). -/
def pyMax2 {α : Type} (f : α → Nat × Nat) : List α → Option α
  | [] => none
  | x :: xs =>
    some (xs.foldl (fun best y => if keyGT (f y) (f best) then y else best) x)

/-- `active if active else projs`: prefer the non-VOID candidates, keeping
all of them only when every candidate is VOID. -/
def preferredCandidates (projs : List TProject) : List TProject :=
  if (projs.filter fun p => p.status != "VOID").isEmpty then projs
  else projs.filter fun p => p.status != "VOID"

/-- The per-group selection of the deduplication loop. -/
def pickBest (projs : List TProject) : Option TProject :=
  pyMax2 dedupSortKey (preferredCandidates projs)

/-- Sort comparator of `deduped.sort(key=lambda x: -(x["units"] or 0))`:
units descending, missing units as 0 (stable). -/
def unitsDescLe (a b : TProject) : Bool :=
  decide (b.units.getD 0 ≤ a.units.getD 0)

/-- `has_complete_address`: the address starts with a digit. -/
def has_complete_address (addr : String) : Bool :=
  match addr.data with
  | [] => false
  | c :: _ => c.isDigit

/-- The deduplication/sort/filter tail of `find_developments` (source lines
387–447), taking the assembled candidate projects as input: group by
`dedupKey`, keep the best of each group, sort by units descending, then
drop projects with neither a parcel nor a complete address. -/
def dedupProjects (projects : List TProject) : List TProject :=
  (pySort unitsDescLe
      ((groupByKey dedupKey projects).filterMap fun kg => pickBest kg.2)).filter
    fun proj => !proj.parcels.isEmpty || proj.addresses.any has_complete_address

theorem keyGT_eq_false {a b : Nat × Nat} :
    keyGT a b = false ↔ (a.1 ≤ b.1 ∧ (a.1 = b.1 → a.2 ≤ b.2)) := by
  simp only [keyGT, Bool.or_eq_false_iff, Bool.and_eq_false_iff,
    decide_eq_false_iff_not, not_lt]
  constructor
  · rintro ⟨h1, h2 | h2⟩
    · exact ⟨h1, fun he => absurd he h2⟩
    · exact ⟨h1, fun _ => h2⟩
  · rintro ⟨h1, h2⟩
    by_cases he : a.1 = b.1
    · exact ⟨h1, Or.inr (h2 he)⟩
    · exact ⟨h1, Or.inl he⟩

theorem keyGT_irrefl (a : Nat × Nat) : keyGT a a = false :=
  keyGT_eq_false.mpr ⟨le_refl _, fun _ => le_refl _⟩

theorem keyGT_asymm {a b : Nat × Nat} (h : keyGT a b = true) :
    keyGT b a = false := by
  simp only [keyGT, Bool.or_eq_true, Bool.and_eq_true, decide_eq_true_eq] at h
  refine keyGT_eq_false.mpr ?_
  omega

theorem keyGT_false_trans {a b c : Nat × Nat} (h1 : keyGT a b = false)
    (h2 : keyGT b c = false) : keyGT a c = false := by
  rw [keyGT_eq_false] at h1 h2 ⊢
  omega

theorem foldl_max_mem {α : Type} (f : α → Nat × Nat) (xs : List α) (x : α) :
    (xs.foldl (fun best y => if keyGT (f y) (f best) then y else best) x) = x ∨
      (xs.foldl (fun best y => if keyGT (f y) (f best) then y else best) x) ∈ xs := by
  induction xs generalizing x with
  | nil => exact Or.inl rfl
  | cons y ys ih =>
    rw [List.foldl_cons]
    rcases ih (if keyGT (f y) (f x) then y else x) with h | h
    · rw [h]
      split
      · exact Or.inr (List.mem_cons_self _ _)
      · exact Or.inl rfl
    · exact Or.inr (List.mem_cons_of_mem _ h)

theorem foldl_max_ge {α : Type} (f : α → Nat × Nat) (xs : List α) (x : α) :
    ∀ q, (q = x ∨ q ∈ xs) →
      keyGT (f q)
        (f (xs.foldl (fun best y => if keyGT (f y) (f best) then y else best) x))
        = false := by
  induction xs generalizing x with
  | nil =>
    rintro q (rfl | hq)
    · exact keyGT_irrefl _
    · cases hq
  | cons y ys ih =>
    intro q hq
    rw [List.foldl_cons]
    have hstep : ∀ z, keyGT (f z) (f (if keyGT (f y) (f x) then y else x)) = false →
        keyGT (f q)
          (f (ys.foldl (fun best y => if keyGT (f y) (f best) then y else best)
            (if keyGT (f y) (f x) then y else x))) = false → True := fun _ _ _ => trivial
    rcases hq with rfl | hq
    · -- q is the running best x
      by_cases hyx : keyGT (f y) (f q) = true
      · rw [if_pos hyx]
        have h1 : keyGT (f q) (f y) = false := keyGT_asymm hyx
        have h2 := ih y y (Or.inl rfl)
        exact keyGT_false_trans h1 h2
      · rw [if_neg hyx]
        exact ih q q (Or.inl rfl)
    · rcases List.mem_cons.mp hq with rfl | hq
      · -- q is the new element y
        by_cases hyx : keyGT (f q) (f x) = true
        · rw [if_pos hyx]
          exact ih q q (Or.inl rfl)
        · rw [if_neg hyx]
          have h1 : keyGT (f q) (f x) = false := by
            simpa using hyx
          have h2 := ih x x (Or.inl rfl)
          exact keyGT_false_trans h1 h2
      · exact ih _ q (Or.inr hq)

theorem pyMax2_mem {α : Type} {f : α → Nat × Nat} {l : List α} {b : α}
    (h : pyMax2 f l = some b) : b ∈ l := by
  match l with
  | [] => cases h
  | x :: xs =>
    simp only [pyMax2, Option.some.injEq] at h
    rcases foldl_max_mem f xs x with h1 | h1
    · rw [h] at h1; exact h1 ▸ List.mem_cons_self _ _
    · exact List.mem_cons_of_mem _ (h ▸ h1)

theorem pyMax2_ge {α : Type} {f : α → Nat × Nat} {l : List α} {b : α}
    (h : pyMax2 f l = some b) : ∀ q ∈ l, keyGT (f q) (f b) = false := by
  match l with
  | [] => cases h
  | x :: xs =>
    simp only [pyMax2, Option.some.injEq] at h
    intro q hq
    subst h
    rcases List.mem_cons.mp hq with h1 | h1
    · exact foldl_max_ge f xs x q (Or.inl h1)
    · exact foldl_max_ge f xs x q (Or.inr h1)

/-- The selected survivor belongs to the preferred candidate subset. -/
theorem pickBest_mem {g : List TProject} {b : TProject}
    (h : pickBest g = some b) : b ∈ preferredCandidates g :=
  pyMax2_mem h

theorem pickBest_mem_group {g : List TProject} {b : TProject}
    (h : pickBest g = some b) : b ∈ g := by
  have hb := pickBest_mem h
  unfold preferredCandidates at hb
  split at hb
  · exact hb
  · exact List.mem_of_mem_filter hb

/-- Buckets with provably distinct keys yield pairwise key-distinct
survivors. -/
theorem pairwise_filterMap_key {α : Type} (key : α → String)
    (f : List α → Option α) (hf : ∀ g b, f g = some b → b ∈ g) :
    ∀ l : List (String × List α), ((l.map Prod.fst).Nodup) →
      (∀ kg ∈ l, ∀ p ∈ kg.2, key p = kg.1) →
      (l.filterMap fun kg => f kg.2).Pairwise fun a b => key a ≠ key b := by
  intro l
  induction l with
  | nil => intro _ _; simp
  | cons hd tl ih =>
    rcases hd with ⟨k, g⟩
    intro hnodup hsound
    rw [List.filterMap_cons]
    have hnodup' : (k :: tl.map Prod.fst).Nodup := by simpa using hnodup
    rcases List.nodup_cons.mp hnodup' with ⟨hk, htl⟩
    have hrest := ih htl fun kg hkg => hsound kg (List.mem_cons_of_mem _ hkg)
    match hfg : f g with
    | none => exact hrest
    | some b =>
      refine List.pairwise_cons.mpr ⟨?_, hrest⟩
      intro c hc
      obtain ⟨kg', hkg', hc'⟩ := List.mem_filterMap.mp hc
      have hkb : key b = k := hsound (k, g) (List.mem_cons_self _ _) b (hf g b hfg)
      have hkc : key c = kg'.1 :=
        hsound kg' (List.mem_cons_of_mem _ hkg') c (hf kg'.2 c hc')
      rw [hkb, hkc]
      intro hcon
      exact hk (hcon ▸ List.mem_map_of_mem Prod.fst hkg')

/-- Concrete pair sharing parcel `PARCEL-1`. -/
def approved50 : TProject :=
  { units := some 50, permit_id := "P-A", project_number := ""
    use_type := "Residential", status := "APPROVED"
    addresses := ["123 MAIN ST"], parcels := ["PARCEL-1"]
    zone := "?", zoning_code := "?", code_reason := none
    qualifying_date := none, initial_submit := none, last_updated := none
    permit_count := 1, developer := none }

def withdrawn80 : TProject :=
  { approved50 with units := some 80, permit_id := "P-W", status := "WITHDRAWN" }

/-- The dedup key exactly as the specification words it ("first parcel if
any parcel is known, else the first address beginning with a digit, else
the Project's own identifier"), for comparison against `dedupKey`. -/
def dedupKeySpecStated (p : TProject) : String :=
  match p.parcels with
  | parcel :: _ => parcel
  | [] =>
    match p.addresses.find? has_complete_address with
    | some addr => addr
    | none => p.permit_id

/-- No parcel; first address lacks a leading digit, the second has one. -/
def mainStFirst : TProject :=
  { approved50 with
    permit_id := "X1"
    units := some 30
    parcels := []
    addresses := ["MAIN ST", "123 MAIN ST"] }

/-- No parcel; single digit-leading address equal to the other project's
second address. -/
def mainStOnly : TProject :=
  { approved50 with
    permit_id := "X2"
    units := some 20
    parcels := []
    addresses := ["123 MAIN ST"] }

/-- `dedupProjects` survivors are pairwise distinct on the (code's) dedup
key: bucket keys are distinct, each survivor carries its bucket's key, and
sorting/filtering only permutes and drops elements. -/
theorem dedupProjects_pairwise_key (projects : List TProject) :
    (dedupProjects projects).Pairwise fun a b => dedupKey a ≠ dedupKey b := by
  have hsymm : ∀ {x y : TProject},
      dedupKey x ≠ dedupKey y → dedupKey y ≠ dedupKey x :=
    fun h e => h e.symm
  have h1 : ((groupByKey dedupKey projects).filterMap
      fun kg => pickBest kg.2).Pairwise fun a b => dedupKey a ≠ dedupKey b :=
    pairwise_filterMap_key dedupKey pickBest
      (fun g b h => pickBest_mem_group h)
      (groupByKey dedupKey projects)
      (CvilleEda.groupByKey_keys_nodup dedupKey projects)
      (CvilleEda.groupByKey_sound dedupKey projects)
  have h2 : (pySort unitsDescLe ((groupByKey dedupKey projects).filterMap
      fun kg => pickBest kg.2)).Pairwise fun a b => dedupKey a ≠ dedupKey b :=
    ((pySort_perm unitsDescLe _).pairwise_iff hsymm).mpr h1
  exact List.Pairwise.sublist (List.filter_sublist _) h2

end TopDev

namespace Albemarle

/-!
### `src/permits/albemarle/build_projects.py` — `extract_units`

The three `_UNIT_PATTERNS` regexes share the shape
`(\d+) <ws> <keyword alternation> <ws*> units?` (the generic pattern has no
keyword, requires `\s+`, and ends in `\b`).  They are embedded as a
character-level matcher over `List Char`:
* `\d` is the ASCII digit class, `\s` the whitespace class, a word
  character (for `\b`) is alphanumeric or `_` — the inputs are ASCII text;
* `re.I` is modelled by comparing `Char.toLower` against lowercase pattern
  text;
* the keyword alternatives of one pattern are mutually non-prefix and
  diverge before their common suffix, so first-alternative-wins without
  backtracking coincides with the regex semantics;
* `\d+` is maximal-munch here: every token that can follow a shortened
  digit run begins with a non-digit, so backtracking never shortens it;
* `finditer` yields non-overlapping matches left to right: scan position
  by position, and jump to a match's end after yielding it.
-/

/-- Case-insensitive literal match: if `kw` (given lowercase) is a prefix of
`s` up to `Char.toLower`, return the rest of `s`. -/
def stripCI : List Char → List Char → Option (List Char)
  | [], s => some s
  | _ :: _, [] => none
  | k :: ks, c :: cs => if c.toLower = k then stripCI ks cs else none

/-- Python `\w` (ASCII): letters, digits, underscore. -/
def isWordChar (c : Char) : Bool := c.isAlphanum || c = '_'

/-- Numeric value of a digit run (`int(m.group(1))`). -/
def digitsVal (ds : List Char) : Nat :=
  ds.foldl (fun acc c => acc * 10 + (c.toNat - '0'.toNat)) 0

/-- Shape of one entry of `_UNIT_PATTERNS`. -/
structure UnitPat where
  /-- `\s+` (true) versus `\s*` (false) after the captured number. -/
  wsRequired : Bool
  /-- keyword alternation before `units?`; empty for the generic pattern. -/
  keywords : List (List Char)
  /-- trailing `\b` (generic pattern only). -/
  wordBoundary : Bool
  /-- the `match_type` paired with the pattern. -/
  tag : String
deriving Repr

/-- Try the keyword alternatives in order; on success also consume the
`\s*` that follows the alternation. -/
def tryKeywords : List (List Char) → List Char → Option (List Char)
  | [], _ => none
  | kw :: rest, s =>
    match stripCI kw s with
    | some r => some (r.dropWhile Char.isWhitespace)
    | none => tryKeywords rest s

/-- Consume `s?` and check the trailing `\b` when the pattern has one;
returns the text after the match. -/
def finishUnit (wordBoundary : Bool) (r : List Char) : Option (List Char) :=
  if wordBoundary then
    match r with
    | [] => some []
    | c :: r5 =>
      if c.toLower = 's' then
        match r5 with
        | [] => some []
        | d :: _ => if isWordChar d then none else some r5
      else if isWordChar c then none else some r
  else
    match r with
    | c :: r5 => if c.toLower = 's' then some r5 else some r
    | [] => some []

/-- The `\s+`/`\s*` segment after the captured number. -/
def reqWs (required : Bool) (r1 : List Char) : Option (List Char) :=
  if required && (r1.takeWhile Char.isWhitespace).isEmpty then none
  else some (r1.dropWhile Char.isWhitespace)

/-- The keyword alternation segment; a pattern without keywords passes the
text through. -/
def afterKw (kws : List (List Char)) (r2 : List Char) : Option (List Char) :=
  if kws.isEmpty then some r2 else tryKeywords kws r2

/-- Attempt to match a `_UNIT_PATTERNS` entry at the start of `s`; on
success return the captured number and the text after the match. -/
def matchAt (pat : UnitPat) (s : List Char) : Option (Nat × List Char) :=
  if (s.takeWhile Char.isDigit).isEmpty then none
  else
    ((reqWs pat.wsRequired (s.dropWhile Char.isDigit)).bind fun r2 =>
      (afterKw pat.keywords r2).bind fun r3 =>
        (stripCI ("unit".data) r3).bind fun r4 =>
          finishUnit pat.wordBoundary r4).map
      fun rest => (digitsVal (s.takeWhile Char.isDigit), rest)

/-- One `re.Match` of a unit pattern: `m.start()`, `int(m.group(1))`,
`m.end()`. -/
structure Occ where
  start : Nat
  count : Nat
  stop : Nat
deriving DecidableEq, Repr

theorem stripCI_length {kw s r : List Char} (h : stripCI kw s = some r) :
    r.length ≤ s.length := by
  induction kw generalizing s with
  | nil => cases s <;> (cases h; simp)
  | cons k ks ih =>
    match s with
    | [] => cases h
    | c :: cs =>
      rw [stripCI] at h
      split at h
      · exact le_trans (ih h) (by simp)
      · cases h

theorem dropWhile_length_le (p : Char → Bool) (l : List Char) :
    (l.dropWhile p).length ≤ l.length :=
  (List.dropWhile_sublist _).length_le

theorem tryKeywords_length {kws : List (List Char)} {s r : List Char}
    (h : tryKeywords kws s = some r) : r.length ≤ s.length := by
  induction kws with
  | nil => cases h
  | cons kw rest ih =>
    rw [tryKeywords] at h
    split at h
    case h_1 r' hr =>
      cases h
      exact le_trans (dropWhile_length_le _ _) (stripCI_length hr)
    case h_2 => exact ih h

theorem finishUnit_length {wb : Bool} {r rest : List Char}
    (h : finishUnit wb r = some rest) : rest.length ≤ r.length := by
  cases wb
  · match r with
    | [] =>
      simp only [finishUnit, Bool.false_eq_true, if_false, Option.some.injEq] at h
      simp [← h]
    | c :: r5 =>
      by_cases hs : c.toLower = 's' <;>
        simp only [finishUnit, Bool.false_eq_true, if_false, hs, if_true,
          if_neg, Option.some.injEq] at h <;> simp [← h]
  · match r with
    | [] =>
      simp only [finishUnit, if_true, Option.some.injEq] at h
      simp [← h]
    | c :: r5 =>
      by_cases hs : c.toLower = 's'
      · match r5 with
        | [] =>
          simp only [finishUnit, if_true, hs, Option.some.injEq] at h
          simp [← h]
        | d :: r6 =>
          by_cases hw : isWordChar d = true <;>
            simp only [finishUnit, if_true, hs, hw, Bool.false_eq_true, if_false,
              Option.some.injEq, reduceCtorEq] at h
          simp [← h]
      · by_cases hw : isWordChar c = true <;>
          simp only [finishUnit, if_true, hs, hw, if_neg, Bool.false_eq_true,
            if_false, Option.some.injEq, reduceCtorEq] at h
        simp [← h]

theorem reqWs_length {b : Bool} {r1 r2 : List Char}
    (h : reqWs b r1 = some r2) : r2.length ≤ r1.length := by
  unfold reqWs at h
  split at h
  · cases h
  · cases h; exact dropWhile_length_le _ _

theorem afterKw_length {kws : List (List Char)} {r2 r3 : List Char}
    (h : afterKw kws r2 = some r3) : r3.length ≤ r2.length := by
  unfold afterKw at h
  split at h
  · cases h; exact le_refl _
  · exact tryKeywords_length h

/-- A successful match consumes at least its (nonempty) digit run. -/
theorem matchAt_rest_lt {pat : UnitPat} {s : List Char} {n : Nat}
    {rest : List Char} (h : matchAt pat s = some (n, rest)) :
    rest.length < s.length := by
  unfold matchAt at h
  split at h
  · cases h
  case isFalse hds =>
    rw [Option.map_eq_some'] at h
    obtain ⟨rest', hchain, heq⟩ := h
    rw [show rest = rest' from (congrArg Prod.snd heq).symm]
    rw [Option.bind_eq_some] at hchain
    obtain ⟨r2, hr2, hchain⟩ := hchain
    rw [Option.bind_eq_some] at hchain
    obtain ⟨r3, hr3, hchain⟩ := hchain
    rw [Option.bind_eq_some] at hchain
    obtain ⟨r4, hr4, hfin⟩ := hchain
    have h4 : rest'.length ≤ r4.length := finishUnit_length hfin
    have h3 : r4.length ≤ r3.length := stripCI_length hr4
    have h2 : r3.length ≤ r2.length := afterKw_length hr3
    have h1 : r2.length ≤ (List.dropWhile Char.isDigit s).length :=
      reqWs_length hr2
    have h0 : (List.dropWhile Char.isDigit s).length < s.length := by
      have hsplit := List.takeWhile_append_dropWhile (p := Char.isDigit) (l := s)
      have : (s.takeWhile Char.isDigit).length ≠ 0 := by
        intro hz
        exact hds (by simpa [List.isEmpty_iff, List.length_eq_zero] using hz)
      have hlen : (s.takeWhile Char.isDigit).length +
          (s.dropWhile Char.isDigit).length = s.length := by
        rw [← List.length_append, hsplit]
      omega
    omega

/-- `finditer` over the tail `s`, which starts at absolute index `i`; the
fuel is structural and `occurrences` below supplies `s.length`, which the
strict progress of `matchAt_rest_lt` makes sufficient. -/
def occsFrom (pat : UnitPat) : Nat → List Char → Nat → List Occ
  | 0, _, _ => []
  | _ + 1, [], _ => []
  | fuel + 1, c :: cs, i =>
    match matchAt pat (c :: cs) with
    | some (n, rest) =>
      let len := (c :: cs).length - rest.length
      ⟨i, n, i + len⟩ :: occsFrom pat fuel rest (i + len)
    | none => occsFrom pat fuel cs (i + 1)

/-- All matches of one pattern in `s`, left to right, non-overlapping. -/
def occurrences (pat : UnitPat) (s : List Char) : List Occ :=
  occsFrom pat s.length s 0

/-- `_EXCLUDE_BEFORE.search(before)`: after stripping trailing whitespace,
`before` ends with `sq`, `square`, `$` or `acre` (case-insensitively). -/
def excludeBefore (before : List Char) : Bool :=
  let b := before.reverse.dropWhile Char.isWhitespace
  (stripCI "qs".data b).isSome || (stripCI "erauqs".data b).isSome ||
    (stripCI "$".data b).isSome || (stripCI "erca".data b).isSome

/-- `_EXCLUDE_AFTER.match(after)`: after leading whitespace, `after` starts
with `sf` or with `square` `\s*` `feet` (case-insensitively). -/
def excludeAfter (after : List Char) : Bool :=
  let a := after.dropWhile Char.isWhitespace
  (stripCI "sf".data a).isSome ||
    (match stripCI "square".data a with
     | some r => (stripCI "feet".data (r.dropWhile Char.isWhitespace)).isSome
     | none => false)

/-- The body of the `for m in pattern.finditer(description)` loop: a match
is kept when its integer lies in `[2, 2000]` and neither context exclusion
fires. -/
def acceptOcc (s : List Char) (o : Occ) : Bool :=
  decide (2 ≤ o.count) && decide (o.count ≤ 2000) &&
    !excludeBefore (s.take o.start) && !excludeAfter (s.drop o.stop)

/-- `(\d+)\s*(?:dwelling|residential)\s*units?`. -/
def dwellingPat : UnitPat :=
  { wsRequired := false
    keywords := ["dwelling".data, "residential".data]
    wordBoundary := false, tag := "dwelling" }

/-- `(\d+)\s*(?:apartment|townhome|townhouse|condo)\s*units?`. -/
def housingTypePat : UnitPat :=
  { wsRequired := false
    keywords := ["apartment".data, "townhome".data, "townhouse".data, "condo".data]
    wordBoundary := false, tag := "housing_type" }

/-- `(\d+)\s+units?\b`. -/
def genericPat : UnitPat :=
  { wsRequired := true, keywords := [], wordBoundary := true, tag := "generic" }

/-- `_UNIT_PATTERNS`, ordered by specificity as in the source. -/
def UNIT_PATTERNS : List UnitPat := [dwellingPat, housingTypePat, genericPat]

/-- The pattern loop of `extract_units`: first pattern having an accepted
occurrence wins, and within a pattern the first accepted occurrence wins
(rejected ones `continue`). -/
def extractLoop : List UnitPat → List Char → Option Nat × Option String
  | [], _ => (none, none)
  | pat :: rest, s =>
    match (occurrences pat s).find? (acceptOcc s) with
    | some o => (some o.count, some pat.tag)
    | none => extractLoop rest s

/-- Embedding of `extract_units(description)`. -/
def extract_units (description : String) : Option Nat × Option String :=
  if description = "" then (none, none)
  else extractLoop UNIT_PATTERNS description.data

/-- Any count returned by the pattern loop was accepted, so it lies in
`[2, 2000]`. -/
theorem extractLoop_bounds {pats : List UnitPat} {s : List Char} {n : Nat}
    {t : Option String} (h : extractLoop pats s = (some n, t)) :
    2 ≤ n ∧ n ≤ 2000 := by
  induction pats with
  | nil => simp [extractLoop] at h
  | cons pat rest ih =>
    rw [extractLoop] at h
    split at h
    case h_1 o ho =>
      have hacc := List.find?_some ho
      obtain rfl : o.count = n := by
        simpa using congrArg Prod.fst h
      simp only [acceptOcc, Bool.and_eq_true, decide_eq_true_eq] at hacc
      exact ⟨hacc.1.1.1, hacc.1.1.2⟩
    case h_2 => exact ih h

theorem extract_units_bounds {d : String} {n : Nat} {t : Option String}
    (h : extract_units d = (some n, t)) : 2 ≤ n ∧ n ≤ 2000 := by
  unfold extract_units at h
  split at h
  · cases h
  · exact extractLoop_bounds h

/-- The returned count and tag always come from an accepted occurrence of
one of the three patterns. -/
theorem extractLoop_accepted {pats : List UnitPat} {s : List Char} {n : Nat}
    {tag : String} (h : extractLoop pats s = (some n, some tag)) :
    ∃ pat ∈ pats, pat.tag = tag ∧
      ∃ o ∈ occurrences pat s, o.count = n ∧ acceptOcc s o = true := by
  induction pats with
  | nil => simp [extractLoop] at h
  | cons pat rest ih =>
    rw [extractLoop] at h
    split at h
    case h_1 o ho =>
      refine ⟨pat, List.mem_cons_self _ _, ?_, o, List.mem_of_find?_eq_some ho, ?_, List.find?_some ho⟩
      · simpa using congrArg Prod.snd h
      · simpa using congrArg Prod.fst h
    case h_2 =>
      obtain ⟨p, hp, rest'⟩ := ih h
      exact ⟨p, List.mem_cons_of_mem _ hp, rest'⟩

/-- `find?` over a list whose prefix is all-rejected finds the first
accepted element after it. -/
theorem find?_append_first {α : Type} (p : α → Bool) (pre post : List α)
    (o : α) (hpre : ∀ x ∈ pre, p x = false) (ho : p o = true) :
    List.find? p (pre ++ o :: post) = some o := by
  induction pre with
  | nil => rw [List.nil_append, List.find?_cons, ho]
  | cons a pre ih =>
    have ha := hpre a (List.mem_cons_self _ _)
    rw [List.cons_append, List.find?_cons, ha]
    exact ih fun x hx => hpre x (List.mem_cons_of_mem _ hx)

/-- Patterns with no accepted occurrence are skipped by the loop. -/
theorem extractLoop_skip {pats1 pats2 : List UnitPat} {s : List Char}
    (h : ∀ p ∈ pats1, ∀ o ∈ occurrences p s, acceptOcc s o = false) :
    extractLoop (pats1 ++ pats2) s = extractLoop pats2 s := by
  induction pats1 with
  | nil => simp
  | cons pat rest ih =>
    rw [List.cons_append, extractLoop]
    have : (occurrences pat s).find? (acceptOcc s) = none :=
      List.find?_eq_none.mpr fun o ho => by
        simp [h pat (List.mem_cons_self _ _) o ho]
    rw [this]
    exact ih fun p hp => h p (List.mem_cons_of_mem _ hp)

end Albemarle

/-! ### More string helpers (Python `str.upper`, `startswith`, `<=`) -/

/-- Python `s.upper()` (the data here is ASCII). -/
def strUpper (s : String) : String := ⟨s.data.map Char.toUpper⟩

/-- Python `s.startswith(pre)`. -/
def strStartsWith (s pre : String) : Bool := pre.data.isPrefixOf s.data

/-- Python `<=` on strings: lexicographic by code point. -/
def charListLe : List Char → List Char → Bool
  | [], _ => true
  | _ :: _, [] => false
  | a :: as, b :: bs =>
    if a < b then true else if b < a then false else charListLe as bs

def strLe (a b : String) : Bool := charListLe a.data b.data

theorem charListLe_total : ∀ x y : List Char,
    charListLe x y = true ∨ charListLe y x = true := by
  intro x
  induction x with
  | nil => intro y; exact Or.inl rfl
  | cons a as ih =>
    intro y
    match y with
    | [] => exact Or.inr rfl
    | b :: bs =>
      by_cases hab : a < b
      · exact Or.inl (by simp [charListLe, hab])
      · by_cases hba : b < a
        · exact Or.inr (by simp [charListLe, hba])
        · have : ¬ a < b := hab
          rcases ih bs with h | h
          · exact Or.inl (by simp [charListLe, hab, hba, h])
          · exact Or.inr (by simp [charListLe, hab, hba, h])

theorem charListLe_trans : ∀ x y z : List Char,
    charListLe x y = true → charListLe y z = true → charListLe x z = true := by
  intro x
  induction x with
  | nil => intro y z _ _; rfl
  | cons a as ih =>
    intro y z hxy hyz
    match y, z with
    | [], _ => cases hxy
    | _ :: _, [] => cases hyz
    | b :: bs, c :: cs =>
      rw [charListLe] at hxy hyz ⊢
      by_cases hab : a < b
      · -- a < b; from hyz, b ≤ c in char order
        by_cases hbc : b < c
        · have hac : a < c := lt_trans hab hbc
          rw [if_pos hac]
        · rw [if_neg hbc] at hyz
          by_cases hcb : c < b
          · rw [if_pos hcb] at hyz; cases hyz
          · have hbc' : b = c := le_antisymm (not_lt.mp hcb) (not_lt.mp hbc)
            subst hbc'
            rw [if_pos hab]
      · rw [if_neg hab] at hxy
        by_cases hba : b < a
        · rw [if_pos hba] at hxy; cases hxy
        · rw [if_neg hba] at hxy
          have hab' : a = b := le_antisymm (not_lt.mp hba) (not_lt.mp hab)
          subst hab'
          by_cases hac : a < c
          · rw [if_pos hac]
          · rw [if_neg hac] at hyz ⊢
            by_cases hca : c < a
            · rw [if_pos hca] at hyz; cases hyz
            · rw [if_neg hca] at hyz ⊢
              exact ih bs cs hxy hyz

theorem strLe_total (a b : String) : strLe a b = true ∨ strLe b a = true :=
  charListLe_total a.data b.data

theorem strLe_trans {a b c : String} (h1 : strLe a b = true)
    (h2 : strLe b c = true) : strLe a c = true :=
  charListLe_trans a.data b.data c.data h1 h2

/-- Adjacent-pairs sortedness check (used to exhibit an unsorted output). -/
def isSortedBy {α : Type} (le : α → α → Bool) : List α → Bool
  | [] => true
  | [_] => true
  | a :: b :: rest => le a b && isSortedBy le (b :: rest)

/-- Python dict assignment `m[k] = v` on an insertion-ordered association
list: an existing key keeps its position and gets the new value, a fresh
key is appended. -/
def assocSet {β : Type} : List (String × β) → String → β → List (String × β)
  | [], k, v => [(k, v)]
  | (k', v') :: rest, k, v =>
    if k' = k then (k, v) :: rest else (k', v') :: assocSet rest k v

namespace TopDev

/-!
### `src/permits/top_developments.py` — `apply_overrides`

Python mutates the project dicts found through the pre-omission lookup
indices; the embedding models the dict identities by list position:
`projects` is the backing array, omissions select the surviving positions,
and revisions update the array in place.  A revision value that is present
but null in the YAML is not representable (field presence is one `Option`).
-/

structure TOmit where
  permit_id : Option String := none
  address : Option String := none
deriving DecidableEq, Repr

structure TRevise where
  permit_id : Option String := none
  address : Option String := none
  units : Option Nat := none
  use_type : Option String := none
  status : Option String := none
  zone : Option String := none
  zoning_code : Option String := none
  developer : Option String := none
deriving DecidableEq, Repr

structure TAdd where
  units : Option Nat := none
  permit_id : Option String := none
  project_number : Option String := none
  use_type : Option String := none
  status : Option String := none
  address : Option String := none
  parcel : Option String := none
  zone : Option String := none
  zoning_code : Option String := none
  code_reason : Option String := none
deriving DecidableEq, Repr

/-- The loaded overrides; `none` at the call site models the falsy empty
dict (`if not overrides: return projects`). -/
structure TOverrides where
  omits : List TOmit := []
  revise : List TRevise := []
  add : List TAdd := []
deriving DecidableEq, Repr

/-- `{p["permit_id"]: p for p in projects}` — last duplicate wins. -/
def buildById (projects : List TProject) : List (String × Nat) :=
  projects.enum.foldl (fun m ip => assocSet m ip.2.permit_id ip.1) []

/-- `by_address[addr.upper()] = p` over every address of every project. -/
def buildByAddr (projects : List TProject) : List (String × Nat) :=
  projects.enum.foldl
    (fun m ip =>
      ip.2.addresses.foldl (fun m addr => assocSet m (strUpper addr) ip.1) m) []

def shouldOmit (omitIds omitAddrs : List String) (p : TProject) : Bool :=
  decide (p.permit_id ∈ omitIds) ||
    p.addresses.any fun addr =>
      omitAddrs.any fun oa => strStartsWith (strUpper addr) oa

/-- Target resolution for a revision: permit id when present AND found,
else exact upper-cased address, else the first prefix match in the
address index's insertion order. -/
def findTarget (byId byAddr : List (String × Nat)) (rev : TRevise) :
    Option Nat :=
  match rev.permit_id.bind fun pid => List.lookup pid byId with
  | some i => some i
  | none =>
    match rev.address with
    | none => none
    | some a =>
      match List.lookup (strUpper a) byAddr with
      | some i => some i
      | none =>
        (byAddr.find? fun kv => strStartsWith kv.1 (strUpper a)).map Prod.snd

/-- Overwrite exactly the revision's present fields. -/
def applyRev (p : TProject) (rev : TRevise) : TProject :=
  { p with
    units := match rev.units with | some v => some v | none => p.units
    use_type := rev.use_type.getD p.use_type
    status := rev.status.getD p.status
    zone := rev.zone.getD p.zone
    zoning_code := rev.zoning_code.getD p.zoning_code
    developer := match rev.developer with | some v => some v | none => p.developer }

/-- The synthetic project built from an `add` entry, absent fields
defaulting to the unknown sentinels of the source. -/
def mkAdded (a : TAdd) : TProject :=
  { units := a.units
    permit_id := a.permit_id.getD "OVERRIDE"
    project_number := a.project_number.getD ""
    use_type := a.use_type.getD "?"
    status := a.status.getD "?"
    addresses := match a.address with | some x => [x] | none => []
    parcels := match a.parcel with | some x => [x] | none => []
    zone := a.zone.getD "?"
    zoning_code := a.zoning_code.getD "?"
    code_reason := a.code_reason
    qualifying_date := none
    initial_submit := none
    last_updated := none
    permit_count := 0
    developer := none }

/-- Embedding of `apply_overrides(projects, overrides)` of
`top_developments.py`: omit, then revise, then add, then re-sort by
units descending only. -/
def apply_overrides (projects : List TProject)
    (overrides : Option TOverrides) : List TProject :=
  match overrides with
  | none => projects
  | some ov =>
    let byId := buildById projects
    let byAddr := buildByAddr projects
    let omitIds := ov.omits.filterMap fun o => o.permit_id
    let omitAddrs := ov.omits.filterMap fun o => o.address.map strUpper
    let kept := projects.enum.filterMap fun ip =>
      if shouldOmit omitIds omitAddrs ip.2 then none else some ip.1
    let arr := ov.revise.foldl (fun arr rev =>
      match findTarget byId byAddr rev with
      | some i =>
        match arr.get? i with
        | some p => arr.set i (applyRev p rev)
        | none => arr
      | none => arr) projects
    let result := (arr.enum.filterMap fun ip =>
        if ip.1 ∈ kept then some ip.2 else none) ++ ov.add.map mkAdded
    pySort unitsDescLe result

/-- The sort order the claim asserts for the final re-sort: units
descending (missing as 0), ties by application date (`initial_submit`)
ascending with missing dates last. -/
def claimedTopLe (a b : TProject) : Bool :=
  decide (b.units.getD 0 < a.units.getD 0) ||
    (decide (a.units.getD 0 = b.units.getD 0) &&
      match a.initial_submit, b.initial_submit with
      | some x, some y => decide (x ≤ y)
      | some _, none => true
      | none, some _ => false
      | none, none => true)

theorem unitsDescLe_total (a b : TProject) :
    unitsDescLe a b = true ∨ unitsDescLe b a = true := by
  simp only [unitsDescLe, decide_eq_true_eq]
  omega

theorem unitsDescLe_trans (a b c : TProject) (h1 : unitsDescLe a b = true)
    (h2 : unitsDescLe b c = true) : unitsDescLe a c = true := by
  simp only [unitsDescLe, decide_eq_true_eq] at h1 h2 ⊢
  omega

/-- Equal-unit projects with descending submission dates, for the
counterexample. -/
def tieLate : TProject :=
  { approved50 with
    permit_id := "T1", units := some 10, initial_submit := some 20240105 }

def tieEarly : TProject :=
  { approved50 with
    permit_id := "T2", units := some 10, initial_submit := some 20230101 }

def ovOneAdd : TOverrides :=
  { add := [{ units := some 5, address := some "9 X ST" }] }

end TopDev

namespace Albemarle

/-!
### `src/permits/albemarle/build_projects.py` — project dicts and
`apply_overrides`

`_build_project` emits flat dicts; the fields below are their keys.
`application_date`/`complete_date` hold ISO `YYYY-MM-DD` strings (or are
missing), exactly what the sort key `p["application_date"] or "9999"`
compares lexicographically.  `valuation`/`square_footage` are numeric
pass-through fields never compared by the embedded code.  `related_plans`
(a list of display dicts, never read back) is represented only by
`plan_count`.
-/

structure AProject where
  plan_id : String
  plan_number : String
  project_name : String
  project_number : String
  plan_type : String
  work_class : String
  status : String
  units : Option Nat
  lots : Option Nat
  addresses : List String
  parcels : List String
  zone : String
  district : String
  application_date : Option String
  complete_date : Option String
  valuation : Option Int
  square_footage : Option Int
  description : String
  plan_count : Nat
deriving DecidableEq, Repr

structure AOmit where
  plan_number : Option String := none
  address : Option String := none
deriving DecidableEq, Repr

structure ARevise where
  plan_number : Option String := none
  address : Option String := none
  units : Option Nat := none
  lots : Option Nat := none
  plan_type : Option String := none
  status : Option String := none
  zone : Option String := none
  district : Option String := none
  project_name : Option String := none
deriving DecidableEq, Repr

structure AAdd where
  plan_id : Option String := none
  plan_number : Option String := none
  project_name : Option String := none
  project_number : Option String := none
  plan_type : Option String := none
  work_class : Option String := none
  status : Option String := none
  units : Option Nat := none
  lots : Option Nat := none
  address : Option String := none
  parcel : Option String := none
  zone : Option String := none
  district : Option String := none
  valuation : Option Int := none
  square_footage : Option Int := none
  description : Option String := none
deriving DecidableEq, Repr

structure AOverrides where
  omits : List AOmit := []
  revise : List ARevise := []
  add : List AAdd := []
deriving DecidableEq, Repr

/-- The sort key of `find_projects` and `apply_overrides`:
`(-(units or 0), application_date or "9999")`, ascending. -/
def aSortLe (a b : AProject) : Bool :=
  decide (b.units.getD 0 < a.units.getD 0) ||
    (decide (a.units.getD 0 = b.units.getD 0) &&
      strLe (a.application_date.getD "9999") (b.application_date.getD "9999"))

theorem aSortLe_total (a b : AProject) :
    aSortLe a b = true ∨ aSortLe b a = true := by
  simp only [aSortLe, Bool.or_eq_true, Bool.and_eq_true, decide_eq_true_eq]
  rcases Nat.lt_trichotomy (a.units.getD 0) (b.units.getD 0) with h | h | h
  · exact Or.inr (Or.inl h)
  · rcases strLe_total (a.application_date.getD "9999")
      (b.application_date.getD "9999") with hs | hs
    · exact Or.inl (Or.inr ⟨h, hs⟩)
    · exact Or.inr (Or.inr ⟨h.symm, hs⟩)
  · exact Or.inl (Or.inl h)

theorem aSortLe_trans (a b c : AProject) (h1 : aSortLe a b = true)
    (h2 : aSortLe b c = true) : aSortLe a c = true := by
  simp only [aSortLe, Bool.or_eq_true, Bool.and_eq_true,
    decide_eq_true_eq] at h1 h2 ⊢
  rcases h1 with h1 | ⟨h1e, h1s⟩
  · rcases h2 with h2 | ⟨h2e, _⟩
    · exact Or.inl (lt_trans h2 h1)
    · exact Or.inl (h2e ▸ h1)
  · rcases h2 with h2 | ⟨h2e, h2s⟩
    · exact Or.inl (h1e ▸ h2)
    · exact Or.inr ⟨h1e.trans h2e, strLe_trans h1s h2s⟩

def buildByPlanNumber (projects : List AProject) : List (String × Nat) :=
  projects.enum.foldl (fun m ip => assocSet m ip.2.plan_number ip.1) []

def buildByAddrA (projects : List AProject) : List (String × Nat) :=
  projects.enum.foldl
    (fun m ip =>
      ip.2.addresses.foldl (fun m addr => assocSet m (strUpper addr) ip.1) m) []

def shouldOmitA (omitPlanNumbers omitAddrs : List String) (p : AProject) :
    Bool :=
  decide (p.plan_number ∈ omitPlanNumbers) ||
    p.addresses.any fun addr =>
      omitAddrs.any fun oa => strStartsWith (strUpper addr) oa

def findTargetA (byPn byAddr : List (String × Nat)) (rev : ARevise) :
    Option Nat :=
  match rev.plan_number.bind fun pn => List.lookup pn byPn with
  | some i => some i
  | none =>
    match rev.address with
    | none => none
    | some a =>
      match List.lookup (strUpper a) byAddr with
      | some i => some i
      | none =>
        (byAddr.find? fun kv => strStartsWith kv.1 (strUpper a)).map Prod.snd

def applyRevA (p : AProject) (rev : ARevise) : AProject :=
  { p with
    units := match rev.units with | some v => some v | none => p.units
    lots := match rev.lots with | some v => some v | none => p.lots
    plan_type := rev.plan_type.getD p.plan_type
    status := rev.status.getD p.status
    zone := rev.zone.getD p.zone
    district := rev.district.getD p.district
    project_name := rev.project_name.getD p.project_name }

def mkAddedA (a : AAdd) : AProject :=
  { plan_id := a.plan_id.getD "OVERRIDE"
    plan_number := a.plan_number.getD "OVERRIDE"
    project_name := a.project_name.getD ""
    project_number := a.project_number.getD ""
    plan_type := a.plan_type.getD "?"
    work_class := a.work_class.getD ""
    status := a.status.getD "?"
    units := a.units
    lots := a.lots
    addresses := match a.address with | some x => [x] | none => []
    parcels := match a.parcel with | some x => [x] | none => []
    zone := a.zone.getD "?"
    district := a.district.getD "?"
    application_date := none
    complete_date := none
    valuation := a.valuation
    square_footage := a.square_footage
    description := a.description.getD ""
    plan_count := 0 }

/-- Embedding of `apply_overrides(projects, overrides)` of
`albemarle/build_projects.py`: omit, then revise, then add, then re-sort
by `(-(units or 0), application_date or "9999")`. -/
def apply_overrides (projects : List AProject)
    (overrides : Option AOverrides) : List AProject :=
  match overrides with
  | none => projects
  | some ov =>
    let byPn := buildByPlanNumber projects
    let byAddr := buildByAddrA projects
    let omitPns := ov.omits.filterMap fun o => o.plan_number
    let omitAddrs := ov.omits.filterMap fun o => o.address.map strUpper
    let kept := projects.enum.filterMap fun ip =>
      if shouldOmitA omitPns omitAddrs ip.2 then none else some ip.1
    let arr := ov.revise.foldl (fun arr rev =>
      match findTargetA byPn byAddr rev with
      | some i =>
        match arr.get? i with
        | some p => arr.set i (applyRevA p rev)
        | none => arr
      | none => arr) projects
    let result := (arr.enum.filterMap fun ip =>
        if ip.1 ∈ kept then some ip.2 else none) ++ ov.add.map mkAddedA
    pySort aSortLe result

end Albemarle

namespace Albemarle

/-!
### `src/permits/albemarle/build_projects.py` — `find_projects` grouping

The three passes of `find_projects` (lines 297–342).  Only group
membership is modelled: `_select_primary` and `_build_project` consume
each group without changing which plans belong to it, which is what the
partition claim quantifies over.  `AlbemarlePlan` carries the fields the
grouping reads.
-/

structure AlbemarlePlan where
  plan_id : String
  plan_type : String
  project_number : String
  main_parcel_number : String
deriving DecidableEq, Repr

def CORE_PLAN_TYPES : List String :=
  ["Site Development Plan", "Subdivision", "Zoning Map Amendment",
   "Special Use", "Special Exceptions"]

/-- `_is_core_type`. -/
def is_core_type (p : AlbemarlePlan) : Bool :=
  decide (p.plan_type ∈ CORE_PLAN_TYPES)

/-- Pass 1: group plans with a non-empty `project_number` by it, keeping a
group only if some member is a core type. -/
def pass1Kept (plans : List AlbemarlePlan) :
    List (String × List AlbemarlePlan) :=
  (groupByKey (fun p => p.project_number)
      (plans.filter fun p => p.project_number != "")).filter
    fun kg => kg.2.any is_core_type

/-- `grouped_ids` after pass 1. -/
def ids1 (plans : List AlbemarlePlan) : List String :=
  (pass1Kept plans).flatMap fun kg => kg.2.map fun p => p.plan_id

/-- Pass 2 pool: ungrouped core-type plans with a parcel number. -/
def pass2Pool (plans : List AlbemarlePlan) : List AlbemarlePlan :=
  plans.filter fun p =>
    !(decide (p.plan_id ∈ ids1 plans)) && is_core_type p &&
      p.main_parcel_number != ""

/-- Pass 2: group the pool by `main_parcel_number`. -/
def pass2 (plans : List AlbemarlePlan) :
    List (String × List AlbemarlePlan) :=
  groupByKey (fun p => p.main_parcel_number) (pass2Pool plans)

/-- `grouped_ids` after pass 2. -/
def ids12 (plans : List AlbemarlePlan) : List String :=
  ids1 plans ++ (pass2 plans).flatMap fun kg => kg.2.map fun p => p.plan_id

/-- Pass 3 pool: remaining ungrouped core-type plans (each a singleton). -/
def pass3Pool (plans : List AlbemarlePlan) : List AlbemarlePlan :=
  plans.filter fun p => !(decide (p.plan_id ∈ ids12 plans)) && is_core_type p

/-- The member lists of the groups the three passes build, in pass order. -/
def findProjectGroups (plans : List AlbemarlePlan) :
    List (List AlbemarlePlan) :=
  (pass1Kept plans).map Prod.snd ++ (pass2 plans).map Prod.snd ++
    (pass3Pool plans).map fun p => [p]

/-- All member-record identifiers over all groups. -/
def allGroupIds (plans : List AlbemarlePlan) : List String :=
  (findProjectGroups plans).flatMap fun g => g.map fun p => p.plan_id

/-- A member of a bucket of `groupByKey` is an element of the input. -/
theorem bucket_mem {α : Type} {key : α → String} {l : List α}
    {kg : String × List α} {p : α} (hkg : kg ∈ groupByKey key l)
    (hp : p ∈ kg.2) : p ∈ l :=
  (groupByKey_mem key l p).mp (List.mem_flatMap.mpr ⟨kg, hkg, hp⟩)

/-- Buckets with distinct keys are disjoint under an injective identifier. -/
theorem buckets_disjoint {α : Type} (key idf : α → String) (l : List α)
    (hinj : ∀ p ∈ l, ∀ q ∈ l, idf p = idf q → p = q) :
    ∀ bs : List (String × List α), (bs.map Prod.fst).Nodup →
      (∀ kg ∈ bs, ∀ p ∈ kg.2, key p = kg.1 ∧ p ∈ l) →
      (bs.map Prod.snd).Pairwise
        fun g1 g2 => ∀ p ∈ g1, ∀ q ∈ g2, idf p ≠ idf q := by
  intro bs
  induction bs with
  | nil => intro _ _; simp
  | cons hd tl ih =>
    rcases hd with ⟨k, g⟩
    intro hnd hsound
    have hnd' : (k :: tl.map Prod.fst).Nodup := by simpa using hnd
    rcases List.nodup_cons.mp hnd' with ⟨hk, htl⟩
    rw [List.map_cons]
    refine List.pairwise_cons.mpr
      ⟨?_, ih htl fun kg h => hsound kg (List.mem_cons_of_mem _ h)⟩
    intro g' hg' p hp q hq heq
    obtain ⟨kg', hkg', hsnd⟩ := List.mem_map.mp hg'
    have h1 := hsound (k, g) (List.mem_cons_self _ _) p hp
    have h2 := hsound kg' (List.mem_cons_of_mem _ hkg') q (by rw [hsnd]; exact hq)
    have hpq : p = q := hinj p h1.2 q h2.2 heq
    have e1 : key p = k := h1.1
    have e2 : key q = kg'.1 := h2.1
    have : k = kg'.1 := by rw [← e1, hpq, e2]
    exact hk (this ▸ List.mem_map_of_mem Prod.fst hkg')

/-- Members of kept pass-1 buckets: keyed by their project number, drawn
from the plans with a non-empty project number, in a group with a core
member. -/
theorem pass1Kept_sound {plans : List AlbemarlePlan}
    {kg : String × List AlbemarlePlan} (hkg : kg ∈ pass1Kept plans)
    {p : AlbemarlePlan} (hp : p ∈ kg.2) :
    p.project_number = kg.1 ∧ p ∈ plans ∧ p.project_number ≠ "" ∧
      ∃ q ∈ kg.2, is_core_type q = true := by
  have hmem := List.mem_of_mem_filter hkg
  have hkey := groupByKey_sound (fun p => p.project_number) _ kg hmem p hp
  have hin := bucket_mem hmem hp
  rcases List.mem_filter.mp hin with ⟨hplans, hpn⟩
  have hany := List.of_mem_filter hkg
  rcases List.any_eq_true.mp hany with ⟨q, hq, hqc⟩
  exact ⟨hkey, hplans, by simpa using hpn, q, hq, hqc⟩

/-- Identifiers in `ids1` come from members of kept pass-1 buckets. -/
theorem ids1_mem {plans : List AlbemarlePlan} {x : String} :
    x ∈ ids1 plans ↔
      ∃ kg ∈ pass1Kept plans, ∃ q ∈ kg.2, q.plan_id = x := by
  simp [ids1, List.mem_flatMap]

theorem ids12_mem {plans : List AlbemarlePlan} {x : String} :
    x ∈ ids12 plans ↔ x ∈ ids1 plans ∨
      ∃ kg ∈ pass2 plans, ∃ q ∈ kg.2, q.plan_id = x := by
  simp [ids12, List.mem_flatMap]

/-- Members of pass-2 buckets: keyed by their parcel, core, ungrouped. -/
theorem pass2_sound {plans : List AlbemarlePlan}
    {kg : String × List AlbemarlePlan} (hkg : kg ∈ pass2 plans)
    {p : AlbemarlePlan} (hp : p ∈ kg.2) :
    p.main_parcel_number = kg.1 ∧ p ∈ plans ∧ is_core_type p = true ∧
      p.plan_id ∉ ids1 plans ∧ p.main_parcel_number ≠ "" := by
  rw [pass2] at hkg
  have hkey := groupByKey_sound (fun p => p.main_parcel_number) _ kg hkg p hp
  have hin := bucket_mem hkg hp
  rcases List.mem_filter.mp hin with ⟨hplans, hcond⟩
  simp only [Bool.and_eq_true, Bool.not_eq_true', decide_eq_false_iff_not,
    bne_iff_ne] at hcond
  exact ⟨hkey, hplans, hcond.1.2, hcond.1.1, hcond.2⟩

theorem pass3_sound {plans : List AlbemarlePlan} {p : AlbemarlePlan}
    (hp : p ∈ pass3Pool plans) :
    p ∈ plans ∧ is_core_type p = true ∧ p.plan_id ∉ ids12 plans := by
  rcases List.mem_filter.mp hp with ⟨hplans, hcond⟩
  simp only [Bool.and_eq_true, Bool.not_eq_true', decide_eq_false_iff_not]
    at hcond
  exact ⟨hplans, hcond.2, hcond.1⟩

/-- Amended partition invariant of `find_projects`: under distinct plan
identifiers, the groups are pairwise disjoint by identifier, every
core-type plan's identifier lands in some group, and every group member is
a plan that either is a core type itself or carries a non-empty project
number in a group that also contains a core type. -/
theorem find_projects_partition (plans : List AlbemarlePlan)
    (hnodup : (plans.map fun p => p.plan_id).Nodup) :
    (findProjectGroups plans).Pairwise
      (fun g1 g2 => ∀ p ∈ g1, ∀ q ∈ g2, p.plan_id ≠ q.plan_id) ∧
    (∀ p ∈ plans, is_core_type p = true → p.plan_id ∈ allGroupIds plans) ∧
    (∀ g ∈ findProjectGroups plans, ∀ p ∈ g,
      p ∈ plans ∧ (is_core_type p = true ∨
        (p.project_number ≠ "" ∧ ∃ q ∈ g, is_core_type q = true))) := by
  have hinj : ∀ p ∈ plans, ∀ q ∈ plans, p.plan_id = q.plan_id → p = q :=
    fun p hp q hq h => List.inj_on_of_nodup_map hnodup hp hq h
  -- pairwise disjointness of the three blocks of groups
  have hP1 : ((pass1Kept plans).map Prod.snd).Pairwise
      fun g1 g2 => ∀ p ∈ g1, ∀ q ∈ g2, p.plan_id ≠ q.plan_id := by
    refine buckets_disjoint (fun p => p.project_number) (fun p => p.plan_id)
      plans hinj (pass1Kept plans) ?_ ?_
    · exact List.Nodup.sublist
        ((List.filter_sublist _).map Prod.fst)
        (groupByKey_keys_nodup (fun p : AlbemarlePlan => p.project_number)
          (plans.filter fun p => p.project_number != ""))
    · intro kg hkg p hp
      exact ⟨(pass1Kept_sound hkg hp).1, (pass1Kept_sound hkg hp).2.1⟩
  have hP2 : ((pass2 plans).map Prod.snd).Pairwise
      fun g1 g2 => ∀ p ∈ g1, ∀ q ∈ g2, p.plan_id ≠ q.plan_id := by
    refine buckets_disjoint (fun p => p.main_parcel_number)
      (fun p => p.plan_id) plans hinj (pass2 plans)
      (groupByKey_keys_nodup _ _) ?_
    intro kg hkg p hp
    exact ⟨(pass2_sound hkg hp).1, (pass2_sound hkg hp).2.1⟩
  have hP3 : (((pass3Pool plans).map fun p => [p]) :
      List (List AlbemarlePlan)).Pairwise
      fun g1 g2 => ∀ p ∈ g1, ∀ q ∈ g2, p.plan_id ≠ q.plan_id := by
    rw [List.pairwise_map]
    have hnd3 : ((pass3Pool plans).map fun p => p.plan_id).Nodup :=
      List.Nodup.sublist ((List.filter_sublist plans).map _) hnodup
    have hpw : (pass3Pool plans).Pairwise
        fun a b => a.plan_id ≠ b.plan_id := List.pairwise_map.mp hnd3
    refine hpw.imp ?_
    intro a b h p hp q hq
    rw [List.mem_singleton] at hp hq
    subst hp; subst hq
    exact h
  have hid1_of : ∀ {g1 : List AlbemarlePlan} {p : AlbemarlePlan},
      g1 ∈ (pass1Kept plans).map Prod.snd → p ∈ g1 →
      p.plan_id ∈ ids1 plans := by
    intro g1 p hg1 hp
    obtain ⟨kg, hkg, he⟩ := List.mem_map.mp hg1
    subst he
    exact ids1_mem.mpr ⟨kg, hkg, p, hp, rfl⟩
  have hid2_of : ∀ {g1 : List AlbemarlePlan} {p : AlbemarlePlan},
      g1 ∈ (pass2 plans).map Prod.snd → p ∈ g1 →
      p.plan_id ∈ ids12 plans := by
    intro g1 p hg1 hp
    obtain ⟨kg, hkg, he⟩ := List.mem_map.mp hg1
    subst he
    exact ids12_mem.mpr (Or.inr ⟨kg, hkg, p, hp, rfl⟩)
  have hC12 : ∀ g1 ∈ (pass1Kept plans).map Prod.snd,
      ∀ g2 ∈ (pass2 plans).map Prod.snd,
      ∀ p ∈ g1, ∀ q ∈ g2, p.plan_id ≠ q.plan_id := by
    intro g1 hg1 g2 hg2 p hp q hq heq
    obtain ⟨kg2, hkg2, he2⟩ := List.mem_map.mp hg2
    subst he2
    exact (pass2_sound hkg2 hq).2.2.2.1 (heq ▸ hid1_of hg1 hp)
  have hC13 : ∀ g1 ∈ (pass1Kept plans).map Prod.snd,
      ∀ g2 ∈ ((pass3Pool plans).map fun p => [p]),
      ∀ p ∈ g1, ∀ q ∈ g2, p.plan_id ≠ q.plan_id := by
    intro g1 hg1 g2 hg2 p hp q hq heq
    obtain ⟨a, ha, he⟩ := List.mem_map.mp hg2
    subst he
    rw [List.mem_singleton] at hq
    subst hq
    exact (pass3_sound ha).2.2
      (heq ▸ (ids12_mem.mpr (Or.inl (hid1_of hg1 hp))))
  have hC23 : ∀ g1 ∈ (pass2 plans).map Prod.snd,
      ∀ g2 ∈ ((pass3Pool plans).map fun p => [p]),
      ∀ p ∈ g1, ∀ q ∈ g2, p.plan_id ≠ q.plan_id := by
    intro g1 hg1 g2 hg2 p hp q hq heq
    obtain ⟨a, ha, he⟩ := List.mem_map.mp hg2
    subst he
    rw [List.mem_singleton] at hq
    subst hq
    exact (pass3_sound ha).2.2 (heq ▸ hid2_of hg1 hp)
  refine ⟨?_, ?_, ?_⟩
  · rw [findProjectGroups]
    refine List.pairwise_append.mpr
      ⟨List.pairwise_append.mpr ⟨hP1, hP2, hC12⟩, hP3, ?_⟩
    intro g1 hg1 g2 hg2
    rcases List.mem_append.mp hg1 with hg1 | hg1
    · exact hC13 g1 hg1 g2 hg2
    · exact hC23 g1 hg1 g2 hg2
  · -- every core plan's id is in some group
    intro p hp hcore
    have hmemGroups : ∀ {g}, g ∈ findProjectGroups plans → p ∈ g →
        p.plan_id ∈ allGroupIds plans := by
      intro g hg hpg
      exact List.mem_flatMap.mpr ⟨g, hg, List.mem_map_of_mem _ hpg⟩
    by_cases hpn : p.project_number = ""
    · have hid1 : p.plan_id ∉ ids1 plans := by
        intro hin
        obtain ⟨kg, hkg, q, hq, hqid⟩ := ids1_mem.mp hin
        have hs := pass1Kept_sound hkg hq
        have : q = p := hinj q hs.2.1 p hp hqid
        exact hs.2.2.1 (this ▸ hpn)
      by_cases hpc : p.main_parcel_number = ""
      · -- pass 3 singleton
        have hid12 : p.plan_id ∉ ids12 plans := by
          intro hin
          rcases ids12_mem.mp hin with hin | ⟨kg, hkg, q, hq, hqid⟩
          · exact hid1 hin
          · have hs := pass2_sound hkg hq
            have : q = p := hinj q hs.2.1 p hp hqid
            exact hs.2.2.2.2 (this ▸ hpc)
        have hpool : p ∈ pass3Pool plans := by
          rw [pass3Pool, List.mem_filter]
          refine ⟨hp, ?_⟩
          simp only [Bool.and_eq_true, Bool.not_eq_true', decide_eq_false_iff_not]
          exact ⟨hid12, hcore⟩
        refine hmemGroups ?_ (List.mem_singleton.mpr rfl)
        rw [findProjectGroups]
        exact List.mem_append_right _ (List.mem_map_of_mem _ hpool)
      · -- pass 2
        have hpool : p ∈ pass2Pool plans := by
          rw [pass2Pool, List.mem_filter]
          refine ⟨hp, ?_⟩
          simp only [Bool.and_eq_true, Bool.not_eq_true', decide_eq_false_iff_not,
            bne_iff_ne]
          exact ⟨⟨hid1, hcore⟩, hpc⟩
        have : p ∈ (pass2 plans).flatMap Prod.snd := by
          rw [pass2]
          exact (groupByKey_mem (fun p => p.main_parcel_number) _ p).mpr hpool
        obtain ⟨kg, hkg, hpk⟩ := List.mem_flatMap.mp this
        refine hmemGroups ?_ hpk
        rw [findProjectGroups]
        exact List.mem_append_left _
          (List.mem_append_right _ (List.mem_map_of_mem _ hkg))
    · -- pass 1
      have hfilt : p ∈ plans.filter fun p => p.project_number != "" := by
        rw [List.mem_filter]
        exact ⟨hp, by simpa using hpn⟩
      have : p ∈ (groupByKey (fun p => p.project_number)
          (plans.filter fun p => p.project_number != "")).flatMap Prod.snd :=
        (groupByKey_mem _ _ p).mpr hfilt
      obtain ⟨kg, hkg, hpk⟩ := List.mem_flatMap.mp this
      have hkept : kg ∈ pass1Kept plans := by
        rw [pass1Kept, List.mem_filter]
        exact ⟨hkg, List.any_eq_true.mpr ⟨p, hpk, hcore⟩⟩
      refine hmemGroups ?_ hpk
      rw [findProjectGroups]
      exact List.mem_append_left _
        (List.mem_append_left _ (List.mem_map_of_mem _ hkept))
  · -- characterization of group members
    intro g hg p hp
    rw [findProjectGroups] at hg
    rcases List.mem_append.mp hg with hg12 | hg3
    · rcases List.mem_append.mp hg12 with hg1 | hg2
      · obtain ⟨kg, hkg, he⟩ := List.mem_map.mp hg1
        subst he
        have hs := pass1Kept_sound hkg hp
        exact ⟨hs.2.1, Or.inr ⟨hs.2.2.1, hs.2.2.2⟩⟩
      · obtain ⟨kg, hkg, he⟩ := List.mem_map.mp hg2
        subst he
        have hs := pass2_sound hkg hp
        exact ⟨hs.2.1, Or.inl hs.2.2.1⟩
    · obtain ⟨a, ha, he⟩ := List.mem_map.mp hg3
      subst he
      rw [List.mem_singleton] at hp
      subst hp
      have hs := pass3_sound ha
      exact ⟨hs.1, Or.inl hs.2.1⟩

/-- Core plan and a minor plan sharing project number `PN-1`. -/
def planCoreP : AlbemarlePlan :=
  { plan_id := "A1", plan_type := "Subdivision"
    project_number := "PN-1", main_parcel_number := "" }

def planMinorP : AlbemarlePlan :=
  { plan_id := "B1", plan_type := "Building Permit"
    project_number := "PN-1", main_parcel_number := "" }

end Albemarle

namespace TopDev

/-!
### `src/permits/top_developments.py` — the zoning-code classifier

Dates are parsed from `"%m/%d/%Y"` strings and encoded as
`year*10000 + month*100 + day`, which is order-isomorphic to `datetime`
comparison for calendar dates.  Per CPython's `_strptime` field regexes,
`%m` accepts a 1–2 digit month (`1[0-2]|0[1-9]|[1-9]`), `%d` a 1–2 digit
day or a space-padded single digit (`3[01]|[12]\d|0[1-9]|[1-9]| [1-9]`),
and `%Y` exactly four digits (`\d\d\d\d`); the whole string must be
consumed, and constructing the `datetime` then validates the calendar
ranges (including leap years) and `year ≥ 1`.
-/

def QUALIFYING_PERMIT_TYPES : List String := ["Site Plan"]

def QUALIFYING_PLANNING_SUBTYPES : List String :=
  ["Rezoning", "Development Plan Review - Major",
   "Development Plan Review - Minor", "Special Use",
   "Special Exception Permit", "Preliminary Subdivision Plat Review"]

def mkDate (y m d : Nat) : Nat := y * 10000 + m * 100 + d

/-- `APPROVAL_CUTOFF = datetime(2024, 2, 19)`. -/
def APPROVAL_CUTOFF : Nat := mkDate 2024 2 19

/-- `SUBMISSION_CUTOFF = datetime(2023, 12, 18)`. -/
def SUBMISSION_CUTOFF : Nat := mkDate 2023 12 18

def isLeapYear (y : Nat) : Bool :=
  y % 4 = 0 && (y % 100 ≠ 0 || y % 400 = 0)

def daysInMonth (y m : Nat) : Nat :=
  if m = 2 then (if isLeapYear y then 29 else 28)
  else if m = 4 || m = 6 || m = 9 || m = 11 then 30
  else 31

/-- Python `str.strip()`. -/
def stripChars (cs : List Char) : List Char :=
  ((cs.dropWhile Char.isWhitespace).reverse.dropWhile Char.isWhitespace).reverse

/-- The `%d` field: a 1–2 digit run, or CPython's `" [1-9]"` alternative
(a space followed by one nonzero digit); returns the day value and the
remaining text.  A leading space admits only the space-padded alternative,
exactly as in the regex `3[01]|[12]\d|0[1-9]|[1-9]| [1-9]` (the numeric
alternatives all start with a digit). -/
def parseDay (r2 : List Char) : Option (Nat × List Char) :=
  match r2 with
  | ' ' :: d :: rest =>
    if d.isDigit && d != '0' then some (Albemarle.digitsVal [d], rest)
    else none
  | _ =>
    let ds2 := r2.takeWhile Char.isDigit
    let r3 := r2.dropWhile Char.isDigit
    if ds2.length = 0 ∨ 2 < ds2.length then none
    else some (Albemarle.digitsVal ds2, r3)

/-- `datetime.strptime(s, "%m/%d/%Y")` on a stripped string: a 1–2 digit
month, `/`, a day via `parseDay`, `/`, exactly four year digits, nothing
left over, and the calendar-range validation of the `datetime`
constructor (day bounds subsume the regex's own 1–31 day range). -/
def parseMDY (cs : List Char) : Option Nat :=
  let ds1 := cs.takeWhile Char.isDigit
  let r1 := cs.dropWhile Char.isDigit
  if ds1.length = 0 ∨ 2 < ds1.length then none
  else
    match r1 with
    | '/' :: r2 =>
      match parseDay r2 with
      | none => none
      | some (d, r3) =>
        match r3 with
        | '/' :: r4 =>
          let ds3 := r4.takeWhile Char.isDigit
          let r5 := r4.dropWhile Char.isDigit
          if ds3.length ≠ 4 ∨ r5 ≠ [] then none
          else
            let m := Albemarle.digitsVal ds1
            let y := Albemarle.digitsVal ds3
            if 1 ≤ y ∧ 1 ≤ m ∧ m ≤ 12 ∧ 1 ≤ d ∧ d ≤ daysInMonth y m then
              some (mkDate y m d)
            else none
        | _ => none
    | _ => none

/-- `parse_date(date_str)`: `None`/empty handling, strip, `strptime`. -/
def parse_date (dateStr : String) : Option Nat :=
  if dateStr = "" then none else parseMDY (stripChars dateStr.data)

/-- `is_qualifying_permit(permit)`. -/
def is_qualifying_permit (p : Permit) : Bool :=
  decide (p.search_result.permit_type ∈ QUALIFYING_PERMIT_TYPES) ||
    (p.search_result.permit_type == "Planning" &&
      decide (p.search_result.sub_type ∈ QUALIFYING_PLANNING_SUBTYPES))

/-- `get_earliest_payment_date(permit)`. -/
def get_earliest_payment_date (p : Permit) : Option Nat :=
  p.payments.foldl
    (fun earliest payment =>
      match parse_date payment.payment_date with
      | some dt =>
        match earliest with
        | none => some dt
        | some e => if dt < e then some dt else some e
      | none => earliest)
    none

/-- The `permit_year` property of the `Permit` model: parse
`^[A-Z]+(\d{2})-` off `info.permit_number`, windowing 00–29 to the 2000s
and 30–99 to the 1900s. -/
def permit_year (p : Permit) : Option Nat :=
  if p.permit_number = "" then none
  else
    let letters := p.permit_number.data.takeWhile Char.isUpper
    let rest := p.permit_number.data.dropWhile Char.isUpper
    if letters.isEmpty then none
    else
      match rest with
      | d1 :: d2 :: '-' :: _ =>
        if d1.isDigit && d2.isDigit then
          let yy := Albemarle.digitsVal [d1, d2]
          some (if yy < 30 then 2000 + yy else 1900 + yy)
        else none
      | _ => none

/-- The candidate list assembled by `get_submission_date`: Intake
Application task dates, then the earliest payment date, then
`date_created`. -/
def submissionCandidates (p : Permit) : List Nat :=
  (p.tasks.filterMap fun task =>
    if task.description == "Intake Application" then
      parse_date task.date_completed
    else none) ++
  (match get_earliest_payment_date p with
   | some d => [d]
   | none => []) ++
  (match parse_date p.search_result.date_created with
   | some d => [d]
   | none => [])

/-- `get_submission_date(permit)`: `min(candidates)` when any exist, else
January 1 of the permit-number year when that parses, else `None`. -/
def get_submission_date (p : Permit) : Option Nat :=
  match submissionCandidates p with
  | [] => (permit_year p).map fun y => mkDate y 1 1
  | c :: rest => some (rest.foldl Nat.min c)

/-- Python `needle in hay` on strings (substring containment). -/
def listIsInfixOf (needle : List Char) : List Char → Bool
  | [] => needle.isEmpty
  | c :: tl => needle.isPrefixOf (c :: tl) || listIsInfixOf needle tl

/-- `get_approval_date(permit)`: the first "Final Approval" task with an
approved result, else the first "Final Site Plan Approved" task with an
approved result; its completion date is parsed (possibly to `None`). -/
def get_approval_date (p : Permit) : Option Nat :=
  match p.tasks.find? fun t =>
      listIsInfixOf "Final Approval".data t.description.data &&
        decide (t.result ∈ ["YES_APPR", "YES", "APPROVED", "APPRV_PC"]) with
  | some t => parse_date t.date_completed
  | none =>
    match p.tasks.find? fun t =>
        listIsInfixOf "Final Site Plan Approved".data t.description.data &&
          decide (t.result ∈ ["YES_APPR", "YES", "APPROVED"]) with
    | some t => parse_date t.date_completed
    | none => none

/-- One step of the earliest-date tracking loop of `get_zoning_code`
(strictly earlier dates replace the running earliest, so the first permit
attaining the minimum is cited). -/
def stepEarliest (f : Permit → Option Nat) (acc : Option (Nat × String))
    (permit : Permit) : Option (Nat × String) :=
  if is_qualifying_permit permit then
    match f permit with
    | some d =>
      match acc with
      | none => some (d, permit.permit_id)
      | some (e, eid) => if d < e then some (d, permit.permit_id) else some (e, eid)
    | none => acc
  else acc

/-- The earliest qualifying date under `f`, with the id of the permit that
produced it.  The source's single loop updates the submission and approval
trackers independently, so it equals one such fold per tracker. -/
def earliestWith (f : Permit → Option Nat) (related : List Permit) :
    Option (Nat × String) :=
  related.foldl (stepEarliest f) none

def pad2 (n : Nat) : String := if n < 10 then "0" ++ toString n else toString n

/-- `%Y` zero-padded to four digits (all dates in this data have four-digit
years, where the paddings agree). -/
def pad4 (n : Nat) : String :=
  if n < 10 then "000" ++ toString n
  else if n < 100 then "00" ++ toString n
  else if n < 1000 then "0" ++ toString n
  else toString n

def dateToIso (n : Nat) : String :=
  pad4 (n / 10000) ++ "-" ++ pad2 (n / 100 % 100) ++ "-" ++ pad2 (n % 100)

def submittedReason (d : Nat) (pid : String) : String :=
  "submitted " ++ dateToIso d ++ " (" ++ pid ++ ")"

def approvedReason (d : Nat) (pid : String) : String :=
  "approved " ++ dateToIso d ++ " (" ++ pid ++ ")"

theorem foldl_min_le (rest : List Nat) :
    ∀ c, rest.foldl Nat.min c ≤ c ∧ ∀ x ∈ rest, rest.foldl Nat.min c ≤ x := by
  induction rest with
  | nil => intro c; exact ⟨le_refl c, by simp⟩
  | cons r rs ih =>
    intro c
    rw [List.foldl_cons]
    obtain ⟨h1, h2⟩ := ih (Nat.min c r)
    refine ⟨le_trans h1 (Nat.min_le_left _ _), ?_⟩
    intro x hx
    rcases List.mem_cons.mp hx with rfl | hx
    · exact le_trans h1 (Nat.min_le_right _ _)
    · exact h2 x hx

theorem foldl_min_mem (rest : List Nat) :
    ∀ c, rest.foldl Nat.min c = c ∨ rest.foldl Nat.min c ∈ rest := by
  induction rest with
  | nil => intro c; exact Or.inl rfl
  | cons r rs ih =>
    intro c
    rw [List.foldl_cons]
    have hmin : Nat.min c r = c ∨ Nat.min c r = r := by
      rcases Nat.le_total c r with h2 | h2
      · exact Or.inl (Nat.min_eq_left h2)
      · exact Or.inr (Nat.min_eq_right h2)
    rcases ih (Nat.min c r) with h | h
    · rcases hmin with h2 | h2
      · exact Or.inl (by rw [h, h2])
      · exact Or.inr (by rw [h, h2]; exact List.mem_cons_self _ _)
    · exact Or.inr (List.mem_cons_of_mem _ h)

/-- `get_submission_date` is the minimum of its candidate list when any
candidate exists, and the year fallback applies only with no candidates. -/
theorem get_submission_date_min (p : Permit) :
    (submissionCandidates p = [] →
      get_submission_date p = (permit_year p).map fun y => mkDate y 1 1) ∧
    (∀ d, get_submission_date p = some d → submissionCandidates p ≠ [] →
      d ∈ submissionCandidates p ∧ ∀ c ∈ submissionCandidates p, d ≤ c) := by
  constructor
  · intro h
    rw [get_submission_date, h]
  · intro d hd hne
    rw [get_submission_date] at hd
    match hc : submissionCandidates p with
    | [] => exact absurd hc hne
    | c :: rest =>
      rw [hc] at hd
      simp only [Option.some.injEq] at hd
      subst hd
      constructor
      · rcases foldl_min_mem rest c with h | h
        · rw [h]; exact List.mem_cons_self _ _
        · exact List.mem_cons_of_mem _ h
      · intro x hx
        rcases List.mem_cons.mp hx with rfl | hx
        · exact (foldl_min_le rest x).1
        · exact (foldl_min_le rest c).2 x hx

theorem earliestWith_none (f : Permit → Option Nat) (l : List Permit) :
    ∀ acc, l.foldl (stepEarliest f) acc = none →
      acc = none ∧ ∀ p ∈ l, is_qualifying_permit p = true → f p = none := by
  induction l with
  | nil => intro acc h; exact ⟨h, by simp⟩
  | cons hd tl ih =>
    intro acc h
    rw [List.foldl_cons] at h
    obtain ⟨hacc', hrest⟩ := ih _ h
    rw [stepEarliest] at hacc'
    by_cases hq : is_qualifying_permit hd = true
    · rw [if_pos hq] at hacc'
      match hf : f hd with
      | some dnew =>
        rw [hf] at hacc'
        match hacceq : acc with
        | none => simp at hacc'
        | some ee =>
          rcases ee with ⟨e, eid⟩
          dsimp only at hacc'
          by_cases hlt : dnew < e
          · rw [if_pos hlt] at hacc'
            cases hacc'
          · rw [if_neg hlt] at hacc'
            cases hacc'
      | none =>
        rw [hf] at hacc'
        refine ⟨hacc', ?_⟩
        intro p hp hqp
        rcases List.mem_cons.mp hp with rfl | hp
        · exact hf
        · exact hrest p hp hqp
    · rw [if_neg hq] at hacc'
      refine ⟨hacc', ?_⟩
      intro p hp hqp
      rcases List.mem_cons.mp hp with rfl | hp
      · exact absurd hqp hq
      · exact hrest p hp hqp

/-- The tracked earliest date is a lower bound of every qualifying date
and is realised by some qualifying permit (or was already in the
accumulator). -/
theorem earliestWith_min (f : Permit → Option Nat) (l : List Permit) :
    ∀ acc d id, l.foldl (stepEarliest f) acc = some (d, id) →
      (∀ p ∈ l, is_qualifying_permit p = true → ∀ d', f p = some d' → d ≤ d') ∧
      (∀ e eid, acc = some (e, eid) → d ≤ e) ∧
      (acc = some (d, id) ∨ ∃ p ∈ l, is_qualifying_permit p = true ∧
        f p = some d ∧ id = p.permit_id) := by
  induction l with
  | nil =>
    intro acc d id h
    simp only [List.foldl_nil] at h
    refine ⟨by simp, ?_, Or.inl h⟩
    intro e eid he
    rw [he] at h
    obtain ⟨rfl, rfl⟩ : e = d ∧ eid = id := by
      simpa [eq_comm] using h
    exact le_refl _
  | cons hd tl ih =>
    intro acc d id h
    rw [List.foldl_cons] at h
    obtain ⟨H1, H2, H3⟩ := ih (stepEarliest f acc hd) d id h
    have hstep_le : ∀ e eid, acc = some (e, eid) →
        ∃ e' eid', stepEarliest f acc hd = some (e', eid') ∧ e' ≤ e := by
      intro e eid hacc
      rw [stepEarliest, hacc]
      by_cases hq : is_qualifying_permit hd = true
      · rw [if_pos hq]
        match hf : f hd with
        | some dnew =>
          dsimp only
          by_cases hlt : dnew < e
          · rw [if_pos hlt]
            exact ⟨dnew, hd.permit_id, rfl, le_of_lt hlt⟩
          · rw [if_neg hlt]
            exact ⟨e, eid, rfl, le_refl _⟩
        | none => exact ⟨e, eid, rfl, le_refl _⟩
      · rw [if_neg hq]
        exact ⟨e, eid, rfl, le_refl _⟩
    refine ⟨?_, ?_, ?_⟩
    · intro p hp hqp d' hfp
      rcases List.mem_cons.mp hp with rfl | hp
      · have hEx : ∃ e' eid', stepEarliest f acc p = some (e', eid') ∧ e' ≤ d' := by
          rw [stepEarliest, if_pos hqp, hfp]
          match acc with
          | none => exact ⟨d', p.permit_id, rfl, le_refl _⟩
          | some ee =>
            rcases ee with ⟨e, eid⟩
            dsimp only
            by_cases hde : d' < e
            · rw [if_pos hde]
              exact ⟨d', p.permit_id, rfl, le_refl _⟩
            · rw [if_neg hde]
              exact ⟨e, eid, rfl, not_lt.mp hde⟩
        obtain ⟨e', eid', hstep, hle⟩ := hEx
        exact le_trans (H2 e' eid' hstep) hle
      · exact H1 p hp hqp d' hfp
    · intro e eid hacc
      obtain ⟨e', eid', hstep, hle⟩ := hstep_le e eid hacc
      exact le_trans (H2 e' eid' hstep) hle
    · rcases H3 with hacc' | ⟨p, hp, hqp, hfp, hid⟩
      · rw [stepEarliest] at hacc'
        by_cases hq : is_qualifying_permit hd = true
        · rw [if_pos hq] at hacc'
          match hf : f hd with
          | some dnew =>
            rw [hf] at hacc'
            match hacceq : acc with
            | none =>
              simp only [Option.some.injEq, Prod.mk.injEq] at hacc'
              exact Or.inr ⟨hd, List.mem_cons_self _ _, hq,
                hacc'.1 ▸ hf, hacc'.2.symm⟩
            | some ee =>
              rcases ee with ⟨e, eid⟩
              dsimp only at hacc'
              by_cases hlt : dnew < e
              · rw [if_pos hlt] at hacc'
                simp only [Option.some.injEq, Prod.mk.injEq] at hacc'
                exact Or.inr ⟨hd, List.mem_cons_self _ _, hq,
                  hacc'.1 ▸ hf, hacc'.2.symm⟩
              · rw [if_neg hlt] at hacc'
                exact Or.inl hacc'
          | none =>
            rw [hf] at hacc'
            exact Or.inl hacc'
        · rw [if_neg hq] at hacc'
          exact Or.inl hacc'
      · exact Or.inr ⟨p, List.mem_cons_of_mem _ hp, hqp, hfp, hid⟩

/-- Embedding of `get_zoning_code(related_permits)`: the decision chain of
lines 242–264 over the tracked earliest submission/approval dates. -/
def get_zoning_code (related : List Permit) :
    String × Option String × Option Nat :=
  match earliestWith get_submission_date related,
      earliestWith get_approval_date related with
  | some (s, sid), ea =>
    if s < SUBMISSION_CUTOFF then ("2003", some (submittedReason s sid), some s)
    else
      match ea with
      | some (a, aid) =>
        if a < APPROVAL_CUTOFF then ("2003", some (approvedReason a aid), some a)
        else ("2023", some (submittedReason s sid), some s)
      | none => ("2023", some (submittedReason s sid), some s)
  | none, some (a, aid) =>
    if a < APPROVAL_CUTOFF then ("2003", some (approvedReason a aid), some a)
    else ("?", none, none)
  | none, none => ("?", none, none)

/-- A qualifying Site Plan permit whose Intake Application task dates it
before the submission cutoff. -/
def sitePlanPermit : Permit :=
  { permit_id := "SP-1"
    search_result :=
      { permit_type := "Site Plan", sub_type := "", status := ""
        parcel_number := "", date_created := "" }
    permit_number := ""
    parent_cases := [], child_cases := [], site_addresses := [], details := []
    tasks := [{ description := "Intake Application", result := ""
                date_completed := "12/01/2023" }]
    payments := [] }

end TopDev

end CvilleEda

/-- C6: `extract_units` boundary behaviour: the four specified examples,
and any returned count comes from an accepted occurrence of one of the
three patterns — in particular it always lies in `[2, 2000]` and passed
both context-exclusion checks. -/
theorem C6_extract_units_boundaries :
    CvilleEda.Albemarle.extract_units "100 dwelling units"
        = (some 100, some "dwelling") ∧
    CvilleEda.Albemarle.extract_units "1500 sq ft units" = (none, none) ∧
    CvilleEda.Albemarle.extract_units "3000 units" = (none, none) ∧
    CvilleEda.Albemarle.extract_units "5 units" = (some 5, some "generic") ∧
    (∀ d n t, CvilleEda.Albemarle.extract_units d = (some n, t) →
      2 ≤ n ∧ n ≤ 2000) ∧
    (∀ d n tag, CvilleEda.Albemarle.extract_units d = (some n, some tag) →
      ∃ pat ∈ CvilleEda.Albemarle.UNIT_PATTERNS, pat.tag = tag ∧
        ∃ o ∈ CvilleEda.Albemarle.occurrences pat d.data, o.count = n ∧
          CvilleEda.Albemarle.acceptOcc d.data o = true) := by
  refine ⟨by decide, by decide, by decide, by decide, ?_, ?_⟩
  · intro d n t h
    exact CvilleEda.Albemarle.extract_units_bounds h
  · intro d n tag h
    unfold CvilleEda.Albemarle.extract_units at h
    split at h
    · cases h
    · exact CvilleEda.Albemarle.extractLoop_accepted h

/-- Witness for C6: the bound statement applied at the accepted example. -/
theorem C6_extract_units_boundaries_witness : 2 ≤ 5 ∧ 5 ≤ 2000 :=
  C6_extract_units_boundaries.2.2.2.2.1 "5 units" 5 (some "generic") (by decide)

/-- C10: a rejected occurrence of a pattern does not end the scan for that
pattern: if none of the earlier patterns has an accepted occurrence, and the
occurrence list of `pat` is an all-rejected prefix followed by an accepted
occurrence `o`, `extract_units` returns `o`'s count with `pat`'s tag. -/
theorem C10_rejected_occurrence_continues
    (d : String) (hne : d ≠ "")
    (pats1 pats2 : List CvilleEda.Albemarle.UnitPat)
    (pat : CvilleEda.Albemarle.UnitPat)
    (hsplit : CvilleEda.Albemarle.UNIT_PATTERNS = pats1 ++ pat :: pats2)
    (hearlier : ∀ p ∈ pats1, ∀ o ∈ CvilleEda.Albemarle.occurrences p d.data,
      CvilleEda.Albemarle.acceptOcc d.data o = false)
    (pre post : List CvilleEda.Albemarle.Occ) (o : CvilleEda.Albemarle.Occ)
    (hocc : CvilleEda.Albemarle.occurrences pat d.data = pre ++ o :: post)
    (hpre : ∀ o' ∈ pre, CvilleEda.Albemarle.acceptOcc d.data o' = false)
    (hacc : CvilleEda.Albemarle.acceptOcc d.data o = true) :
    CvilleEda.Albemarle.extract_units d = (some o.count, some pat.tag) := by
  unfold CvilleEda.Albemarle.extract_units
  rw [if_neg hne, hsplit, CvilleEda.Albemarle.extractLoop_skip hearlier,
    CvilleEda.Albemarle.extractLoop, hocc,
    CvilleEda.Albemarle.find?_append_first _ pre post o hpre hacc]

/-- Witness for C10: `"1 dwelling units"` is rejected (count below 2), and
the scan of the same dwelling pattern still accepts the later
`"100 dwelling units"`. -/
theorem C10_rejected_occurrence_continues_witness :
    CvilleEda.Albemarle.extract_units "1 dwelling units and 100 dwelling units"
      = (some 100, some "dwelling") :=
  C10_rejected_occurrence_continues
    "1 dwelling units and 100 dwelling units" (by decide)
    [] [CvilleEda.Albemarle.housingTypePat, CvilleEda.Albemarle.genericPat]
    CvilleEda.Albemarle.dwellingPat rfl
    (fun p hp => absurd hp (List.not_mem_nil p))
    [⟨0, 1, 16⟩] [] ⟨21, 100, 39⟩ (by decide) (by decide) (by decide)

/-- C5: `find_related_permits` terminates on every input graph (the visited
check bounds the iteration count), and on the two-record cyclic store
A→B→A the traversal from seed `A` returns exactly the set `{A, B}`. -/
theorem C5_traversal_terminates_cycle :
    (∀ (store : List (String × CvilleEda.Permit)) (seeds : List String),
      ∃ r, CvilleEda.PermitUtils.find_related_permits seeds store = some r) ∧
    (∃ r, CvilleEda.PermitUtils.find_related_permits ["A"] CvilleEda.cycleStore
        = some r ∧ ∀ x, x ∈ r ↔ (x = "A" ∨ x = "B")) := by
  constructor
  · intro store seeds
    exact CvilleEda.PermitUtils.find_related_terminates store seeds
  · refine ⟨["B", "A"], by decide, ?_⟩
    intro x
    simp [or_comm]

/-- C9: the traversal's result contains every seed (also seeds absent from
the store), and contains nothing beyond the seeds and the store keys —
an absent seed contributes no neighbours. -/
theorem C9_seeds_in_result (store : List (String × CvilleEda.Permit))
    (seeds : List String) :
    ∃ r, CvilleEda.PermitUtils.find_related_permits seeds store = some r ∧
      (∀ s ∈ seeds, s ∈ r) ∧
      (∀ x ∈ r, x ∈ seeds ∨ x ∈ CvilleEda.storeKeys store) := by
  obtain ⟨r, hr⟩ := CvilleEda.PermitUtils.find_related_terminates store seeds
  refine ⟨r, hr, ?_, ?_⟩
  · intro s hs
    have := (CvilleEda.PermitUtils.aux_mem store _ _ _ _ hr).2
    exact this s (by simpa using hs)
  · intro x hx
    rcases CvilleEda.PermitUtils.aux_subset store _ _ _ _ hr x hx with h | h | h
    · simp at h
    · exact Or.inl (by simpa using h)
    · exact Or.inr h

/-- Witness for C9: seed `"X"` is absent from the cyclic store, yet appears in
the result, and the result stays inside seeds ∪ store keys. -/
theorem C9_seeds_in_result_witness :
    ∃ r, CvilleEda.PermitUtils.find_related_permits ["X"] CvilleEda.cycleStore
        = some r ∧ "X" ∈ r ∧
      (∀ x ∈ r, x ∈ ["X"] ∨ x ∈ CvilleEda.storeKeys CvilleEda.cycleStore) := by
  obtain ⟨r, h1, h2, h3⟩ := C9_seeds_in_result CvilleEda.cycleStore ["X"]
  exact ⟨r, h1, h2 "X" (by decide), h3⟩

/-- C2: `get_zoning_code` follows the fixed decision order (earliest
qualifying submission before the submission cutoff → `"2003"` citing that
submission date; else earliest qualifying approval before the approval
cutoff → `"2003"` via the approval path; else any submission → `"2023"`;
else the unknown sentinel), where the tracked submission date is the
minimum qualifying `get_submission_date` and `get_submission_date` itself
is the minimum of the Intake-Application/payment/creation candidates with
the January-1-of-permit-year fallback only when no candidate exists. -/
theorem C2_zoning_code_rules :
    (∀ (related : List CvilleEda.Permit) (s : Nat) (sid : String),
      CvilleEda.TopDev.earliestWith CvilleEda.TopDev.get_submission_date related
          = some (s, sid) →
      s < CvilleEda.TopDev.SUBMISSION_CUTOFF →
      CvilleEda.TopDev.get_zoning_code related
        = ("2003", some (CvilleEda.TopDev.submittedReason s sid), some s)) ∧
    (∀ (related : List CvilleEda.Permit) (a : Nat) (aid : String),
      (∀ s sid, CvilleEda.TopDev.earliestWith
          CvilleEda.TopDev.get_submission_date related = some (s, sid) →
        ¬ s < CvilleEda.TopDev.SUBMISSION_CUTOFF) →
      CvilleEda.TopDev.earliestWith CvilleEda.TopDev.get_approval_date related
          = some (a, aid) →
      a < CvilleEda.TopDev.APPROVAL_CUTOFF →
      CvilleEda.TopDev.get_zoning_code related
        = ("2003", some (CvilleEda.TopDev.approvedReason a aid), some a)) ∧
    (∀ (related : List CvilleEda.Permit) (s : Nat) (sid : String),
      CvilleEda.TopDev.earliestWith CvilleEda.TopDev.get_submission_date related
          = some (s, sid) →
      ¬ s < CvilleEda.TopDev.SUBMISSION_CUTOFF →
      (∀ a aid, CvilleEda.TopDev.earliestWith
          CvilleEda.TopDev.get_approval_date related = some (a, aid) →
        ¬ a < CvilleEda.TopDev.APPROVAL_CUTOFF) →
      CvilleEda.TopDev.get_zoning_code related
        = ("2023", some (CvilleEda.TopDev.submittedReason s sid), some s)) ∧
    (∀ related : List CvilleEda.Permit,
      CvilleEda.TopDev.earliestWith CvilleEda.TopDev.get_submission_date related
          = none →
      (∀ a aid, CvilleEda.TopDev.earliestWith
          CvilleEda.TopDev.get_approval_date related = some (a, aid) →
        ¬ a < CvilleEda.TopDev.APPROVAL_CUTOFF) →
      CvilleEda.TopDev.get_zoning_code related = ("?", none, none)) ∧
    (∀ (related : List CvilleEda.Permit) (d : Nat) (id : String),
      CvilleEda.TopDev.earliestWith CvilleEda.TopDev.get_submission_date related
          = some (d, id) →
      (∃ p ∈ related, CvilleEda.TopDev.is_qualifying_permit p = true ∧
        CvilleEda.TopDev.get_submission_date p = some d ∧ id = p.permit_id) ∧
      ∀ p ∈ related, CvilleEda.TopDev.is_qualifying_permit p = true →
        ∀ d', CvilleEda.TopDev.get_submission_date p = some d' → d ≤ d') ∧
    (∀ p : CvilleEda.Permit,
      (CvilleEda.TopDev.submissionCandidates p = [] →
        CvilleEda.TopDev.get_submission_date p
          = (CvilleEda.TopDev.permit_year p).map
              fun y => CvilleEda.TopDev.mkDate y 1 1) ∧
      (∀ d, CvilleEda.TopDev.get_submission_date p = some d →
        CvilleEda.TopDev.submissionCandidates p ≠ [] →
        d ∈ CvilleEda.TopDev.submissionCandidates p ∧
          ∀ c ∈ CvilleEda.TopDev.submissionCandidates p, d ≤ c)) := by
  refine ⟨?_, ?_, ?_, ?_, ?_, ?_⟩
  · intro related s sid hS hlt
    unfold CvilleEda.TopDev.get_zoning_code
    rw [hS]
    dsimp only
    rw [if_pos hlt]
  · intro related a aid hSge hA hlt
    unfold CvilleEda.TopDev.get_zoning_code
    match hS : CvilleEda.TopDev.earliestWith
        CvilleEda.TopDev.get_submission_date related with
    | none =>
      rw [hA]
      dsimp only
      rw [if_pos hlt]
    | some pr =>
      rcases pr with ⟨s, sid⟩
      rw [hA]
      dsimp only
      rw [if_neg (hSge s sid hS), if_pos hlt]
  · intro related s sid hS hge hAge
    unfold CvilleEda.TopDev.get_zoning_code
    rw [hS]
    match hA : CvilleEda.TopDev.earliestWith
        CvilleEda.TopDev.get_approval_date related with
    | none =>
      dsimp only
      rw [if_neg hge]
    | some pr =>
      rcases pr with ⟨a, aid⟩
      dsimp only
      rw [if_neg hge, if_neg (hAge a aid hA)]
  · intro related hS hAge
    unfold CvilleEda.TopDev.get_zoning_code
    rw [hS]
    match hA : CvilleEda.TopDev.earliestWith
        CvilleEda.TopDev.get_approval_date related with
    | none => rfl
    | some pr =>
      rcases pr with ⟨a, aid⟩
      dsimp only
      rw [if_neg (hAge a aid hA)]
  · intro related d id hS
    obtain ⟨H1, _, H3⟩ := CvilleEda.TopDev.earliestWith_min
      CvilleEda.TopDev.get_submission_date related none d id hS
    refine ⟨?_, H1⟩
    rcases H3 with h | h
    · cases h
    · exact h
  · intro p
    exact CvilleEda.TopDev.get_submission_date_min p

/-- Witness for C2: the decision rule applied to a single Site Plan permit
whose Intake Application completed 2023-12-01, before the submission
cutoff. -/
theorem C2_zoning_code_rules_witness :
    CvilleEda.TopDev.get_zoning_code [CvilleEda.TopDev.sitePlanPermit]
      = ("2003", some "submitted 2023-12-01 (SP-1)", some 20231201) :=
  C2_zoning_code_rules.1 [CvilleEda.TopDev.sitePlanPermit] 20231201 "SP-1"
    (by decide) (by decide)

/-- C3: within a dedup group the survivor is drawn from the non-VOID
candidates when any exist (else from all), and no candidate in that subset
beats it on the (status priority, unit count) key; concretely, of two
projects sharing parcel `PARCEL-1`, the 50-unit APPROVED one survives over
the 80-unit WITHDRAWN one through the whole dedup pipeline. -/
theorem C3_dedup_tie_break :
    (∀ (g : List CvilleEda.TopDev.TProject) (best : CvilleEda.TopDev.TProject),
      CvilleEda.TopDev.pickBest g = some best →
        best ∈ CvilleEda.TopDev.preferredCandidates g ∧
        ∀ q ∈ CvilleEda.TopDev.preferredCandidates g,
          CvilleEda.TopDev.keyGT (CvilleEda.TopDev.dedupSortKey q)
            (CvilleEda.TopDev.dedupSortKey best) = false) ∧
    CvilleEda.TopDev.dedupProjects
        [CvilleEda.TopDev.withdrawn80, CvilleEda.TopDev.approved50]
      = [CvilleEda.TopDev.approved50] := by
  constructor
  · intro g best h
    exact ⟨CvilleEda.TopDev.pickBest_mem h, CvilleEda.TopDev.pyMax2_ge h⟩
  · decide

/-- Witness for C3: the general part applied to the concrete two-element
group. -/
theorem C3_dedup_tie_break_witness :
    CvilleEda.TopDev.approved50 ∈ CvilleEda.TopDev.preferredCandidates
        [CvilleEda.TopDev.withdrawn80, CvilleEda.TopDev.approved50] ∧
    CvilleEda.TopDev.keyGT
        (CvilleEda.TopDev.dedupSortKey CvilleEda.TopDev.withdrawn80)
        (CvilleEda.TopDev.dedupSortKey CvilleEda.TopDev.approved50) = false := by
  have h := C3_dedup_tie_break.1
    [CvilleEda.TopDev.withdrawn80, CvilleEda.TopDev.approved50]
    CvilleEda.TopDev.approved50 (by decide)
  exact ⟨h.1, h.2 CvilleEda.TopDev.withdrawn80 (by decide)⟩

/-- C4 counterexample: the code keys a parcel-less project by its FIRST
address whether or not it starts with a digit, not by the first
digit-leading address as the claim states; consequently two survivors can
share the claimed key. -/
theorem C4_counterexample_first_address :
    CvilleEda.TopDev.dedupKey CvilleEda.TopDev.mainStFirst ≠
      CvilleEda.TopDev.dedupKeySpecStated CvilleEda.TopDev.mainStFirst ∧
    CvilleEda.TopDev.dedupProjects
        [CvilleEda.TopDev.mainStFirst, CvilleEda.TopDev.mainStOnly]
      = [CvilleEda.TopDev.mainStFirst, CvilleEda.TopDev.mainStOnly] ∧
    CvilleEda.TopDev.dedupKeySpecStated CvilleEda.TopDev.mainStFirst =
      CvilleEda.TopDev.dedupKeySpecStated CvilleEda.TopDev.mainStOnly := by
  refine ⟨by decide, by decide, by decide⟩

/-- C4 (amended): the dedup key is the first parcel, else the first address
(regardless of a leading digit), else the permit id; exactly one project
survives per key, so the surviving projects are pairwise distinct on this
key. -/
theorem C4_dedup_key_distinct (projects : List CvilleEda.TopDev.TProject) :
    (CvilleEda.TopDev.dedupProjects projects).Pairwise
      fun a b => CvilleEda.TopDev.dedupKey a ≠ CvilleEda.TopDev.dedupKey b :=
  CvilleEda.TopDev.dedupProjects_pairwise_key projects

/-- C8 counterexample: `apply_overrides` of `top_developments.py` re-sorts
by unit count only — two equal-unit projects whose submission dates are in
descending order stay in that order after overrides are applied, so the
output is not sorted by the claimed (units desc, date asc) key. -/
theorem C8_counterexample_top_no_date_tiebreak :
    CvilleEda.TopDev.apply_overrides
        [CvilleEda.TopDev.tieLate, CvilleEda.TopDev.tieEarly]
        (some CvilleEda.TopDev.ovOneAdd)
      = [CvilleEda.TopDev.tieLate, CvilleEda.TopDev.tieEarly,
         CvilleEda.TopDev.mkAdded { units := some 5, address := some "9 X ST" }] ∧
    CvilleEda.isSortedBy CvilleEda.TopDev.claimedTopLe
        (CvilleEda.TopDev.apply_overrides
          [CvilleEda.TopDev.tieLate, CvilleEda.TopDev.tieEarly]
          (some CvilleEda.TopDev.ovOneAdd)) = false := by
  refine ⟨by decide, by decide⟩

/-- C1 counterexample: a non-core plan sharing its project number with a
core plan is placed in the pass-1 group, so the union of the groups'
identifiers exceeds the set of core-type records: `B1` is grouped but is
not a core-type record. -/
theorem C1_counterexample_noncore_grouped :
    "B1" ∈ CvilleEda.Albemarle.allGroupIds
        [CvilleEda.Albemarle.planCoreP, CvilleEda.Albemarle.planMinorP] ∧
    CvilleEda.Albemarle.is_core_type CvilleEda.Albemarle.planMinorP = false := by
  refine ⟨by decide, by decide⟩

/-- C1 (amended): with pairwise-distinct plan identifiers, the groups of
`find_projects` are pairwise disjoint on identifiers, every core-type
record belongs to a group, and every group member is either itself a core
type or shares a non-empty project number with a core-type member of the
same (pass-1) group. -/
theorem C1_grouping_partition (plans : List CvilleEda.Albemarle.AlbemarlePlan)
    (hnodup : (plans.map fun p => p.plan_id).Nodup) :
    (CvilleEda.Albemarle.findProjectGroups plans).Pairwise
      (fun g1 g2 => ∀ p ∈ g1, ∀ q ∈ g2, p.plan_id ≠ q.plan_id) ∧
    (∀ p ∈ plans, CvilleEda.Albemarle.is_core_type p = true →
      p.plan_id ∈ CvilleEda.Albemarle.allGroupIds plans) ∧
    (∀ g ∈ CvilleEda.Albemarle.findProjectGroups plans, ∀ p ∈ g,
      p ∈ plans ∧ (CvilleEda.Albemarle.is_core_type p = true ∨
        (p.project_number ≠ "" ∧
          ∃ q ∈ g, CvilleEda.Albemarle.is_core_type q = true))) :=
  CvilleEda.Albemarle.find_projects_partition plans hnodup

/-- Witness for C1: the amended invariant instantiated on the concrete
two-plan store; the core plan `A1` is covered by some group. -/
theorem C1_grouping_partition_witness :
    "A1" ∈ CvilleEda.Albemarle.allGroupIds
      [CvilleEda.Albemarle.planCoreP, CvilleEda.Albemarle.planMinorP] :=
  (C1_grouping_partition
      [CvilleEda.Albemarle.planCoreP, CvilleEda.Albemarle.planMinorP]
      (by decide)).2.1
    CvilleEda.Albemarle.planCoreP (by decide) (by decide)

/-- C8 (amended): after applying a non-empty override specification, the
Albemarle `apply_overrides` re-sorts by units descending (missing as 0)
with ties broken by application date ascending (missing dates, as `"9999"`,
last), while the Charlottesville `apply_overrides` re-sorts by units
descending only, equal-unit projects keeping their prior relative order
(stable sort). -/
theorem C8_apply_overrides_resort :
    (∀ (ps : List CvilleEda.Albemarle.AProject)
        (ov : CvilleEda.Albemarle.AOverrides),
      (CvilleEda.Albemarle.apply_overrides ps (some ov)).Pairwise
        fun a b => CvilleEda.Albemarle.aSortLe a b = true) ∧
    (∀ (ps : List CvilleEda.TopDev.TProject)
        (ov : CvilleEda.TopDev.TOverrides),
      (CvilleEda.TopDev.apply_overrides ps (some ov)).Pairwise
        fun a b => CvilleEda.TopDev.unitsDescLe a b = true) := by
  constructor
  · intro ps ov
    exact CvilleEda.pySort_sorted CvilleEda.Albemarle.aSortLe
      CvilleEda.Albemarle.aSortLe_trans CvilleEda.Albemarle.aSortLe_total _
  · intro ps ov
    exact CvilleEda.pySort_sorted CvilleEda.TopDev.unitsDescLe
      CvilleEda.TopDev.unitsDescLe_trans CvilleEda.TopDev.unitsDescLe_total _


/-- C7: identifier normalization is idempotent: whenever `x` is present in the
store in one of its three forms (verbatim, with `".00"` appended, or with a
`".00"` suffix stripped), `normalize` succeeds and normalizing its result again
returns the same key. -/
theorem C7_normalize_idempotent (keys : List String) (x : String)
    (h : x ∈ keys ∨ x ++ ".00" ∈ keys ∨
      (CvilleEda.strEndsWith x ".00" = true ∧ CvilleEda.strDropRight x 3 ∈ keys)) :
    ∃ k, CvilleEda.PermitUtils.normalize_permit_id x keys = some k ∧
      CvilleEda.PermitUtils.normalize_permit_id k keys = some k := by
  have : ∃ k, CvilleEda.PermitUtils.normalize_permit_id x keys = some k := by
    unfold CvilleEda.PermitUtils.normalize_permit_id
    rcases h with h | h | h
    · exact ⟨x, by rw [if_pos h]⟩
    · by_cases hx : x ∈ keys
      · exact ⟨x, by rw [if_pos hx]⟩
      · exact ⟨x ++ ".00", by rw [if_neg hx, if_pos h]⟩
    · by_cases hx : x ∈ keys
      · exact ⟨x, by rw [if_pos hx]⟩
      · by_cases hx2 : x ++ ".00" ∈ keys
        · exact ⟨x ++ ".00", by rw [if_neg hx, if_pos hx2]⟩
        · exact ⟨CvilleEda.strDropRight x 3, by rw [if_neg hx, if_neg hx2, if_pos h]⟩
  obtain ⟨k, hk⟩ := this
  exact ⟨k, hk, CvilleEda.PermitUtils.normalize_of_mem
    (CvilleEda.PermitUtils.normalize_mem hk)⟩

/-- Witness for C7 at a concrete store: the store holds `"7.00"` and the
query `"7"` matches via the `".00"`-appending form. -/
theorem C7_normalize_idempotent_witness :
    ∃ k, CvilleEda.PermitUtils.normalize_permit_id "7" ["7.00"] = some k ∧
      CvilleEda.PermitUtils.normalize_permit_id k ["7.00"] = some k :=
  C7_normalize_idempotent ["7.00"] "7" (Or.inr (Or.inl (by decide)))
